import Mathlib

/-!
Verification development for the claudish proxy gateway.

Shallow embedding of the routing fabric, the streaming state machines
(OpenRouter, shared OpenAI-compatible, Gemini), the message translators,
the conversation pruner and the token trackers, translated from the
TypeScript sources, together with theorems settling the frozen claims.

JavaScript strings are embedded as Lean `String`; `Map`/`Set` objects are
embedded as association lists / membership lists (insertion order is
preserved where the source iterates over them).  `Date.now()`-derived
identifiers carry no logic; they are embedded as deterministic strings.
-/

set_option maxHeartbeats 1000000

namespace Claudish

/-- JavaScript `s.startsWith(p)`. -/
def jsStartsWith (s p : String) : Bool := p.data.isPrefixOf s.data

/-- JavaScript `s.includes("/")` (the only `includes` call the router makes). -/
def jsIncludesSlash (s : String) : Bool := s.data.contains '/'

/-- JavaScript `a || b` on strings (first operand when non-empty). -/
def jsOr (a b : String) : String := if a = "" then b else a

/-- Substring test, used to state that an emitted message contains a phrase. -/
def strContains (s pat : String) : Bool := (s.splitOn pat).length ≠ 1

/-! ## Provider registries and routing (src/src/proxy-server.ts,
src/src/providers: remote-provider-registry, provider-registry). -/

namespace Routing

/-- A remote provider descriptor: the fields the router reads
(`remote-provider-registry.ts`, `getRemoteProviders`). -/
structure RemoteProvider where
  name : String
  apiKeyEnvVar : String
  prefixes : List String
  deriving Repr, DecidableEq

/-- The remote provider table (`getRemoteProviders`).  The openai entry
carries only the `oai/` prefix ("Removed openai/ to prevent collision with
OpenRouter models"). -/
def getRemoteProviders : List RemoteProvider :=
  [ { name := "gemini", apiKeyEnvVar := "GEMINI_API_KEY",
      prefixes := ["g/", "gemini/"] },
    { name := "openai", apiKeyEnvVar := "OPENAI_API_KEY",
      prefixes := ["oai/"] },
    { name := "openrouter", apiKeyEnvVar := "OPENROUTER_API_KEY",
      prefixes := ["or/"] },
    { name := "minimax", apiKeyEnvVar := "MINIMAX_API_KEY",
      prefixes := ["mmax/", "mm/"] },
    { name := "kimi", apiKeyEnvVar := "MOONSHOT_API_KEY",
      prefixes := ["kimi/", "moonshot/"] },
    { name := "glm", apiKeyEnvVar := "ZHIPU_API_KEY",
      prefixes := ["glm/", "zhipu/"] } ]

/-- Result of remote resolution. -/
structure ResolvedRemote where
  provider : RemoteProvider
  modelName : String
  deriving Repr, DecidableEq

/-- Find the first prefix of one provider matching the model id. -/
def matchPrefixes (modelId : String) : List String → Option String
  | [] => none
  | pfx :: rest =>
      if jsStartsWith modelId pfx then some pfx else matchPrefixes modelId rest

/-- The source's `slice(prefix.length)`. -/
def sliceFrom (modelId pfx : String) : String :=
  ⟨modelId.data.drop pfx.data.length⟩

/-- `resolveRemoteProvider`: first provider whose prefix matches wins. -/
def resolveRemoteProvider (modelId : String) : Option ResolvedRemote :=
  go getRemoteProviders
where
  go : List RemoteProvider → Option ResolvedRemote
    | [] => none
    | p :: rest =>
        match matchPrefixes modelId p.prefixes with
        | some pfx => some { provider := p, modelName := sliceFrom modelId pfx }
        | none => go rest

/-- A local provider descriptor (`provider-registry.ts`). -/
structure LocalProvider where
  name : String
  prefixes : List String
  deriving Repr, DecidableEq

/-- The local provider table (`getProviders`). -/
def getLocalProviders : List LocalProvider :=
  [ { name := "ollama", prefixes := ["ollama/", "ollama:"] },
    { name := "lmstudio", prefixes := ["lmstudio/", "lmstudio:", "mlstudio/", "mlstudio:"] },
    { name := "vllm", prefixes := ["vllm/", "vllm:"] },
    { name := "mlx", prefixes := ["mlx/", "mlx:"] } ]

/-- Result of local resolution. -/
structure ResolvedLocal where
  provider : LocalProvider
  modelName : String
  deriving Repr, DecidableEq

/-- `resolveProvider` over the local provider table. -/
def resolveProvider (modelId : String) : Option ResolvedLocal :=
  go getLocalProviders
where
  go : List LocalProvider → Option ResolvedLocal
    | [] => none
    | p :: rest =>
        match matchPrefixes modelId p.prefixes with
        | some pfx => some { provider := p, modelName := sliceFrom modelId pfx }
        | none => go rest

/-- Result of URL-model parsing. -/
structure UrlParsedModel where
  baseUrl : String
  modelName : String
  deriving Repr, DecidableEq

/-- `parseUrlModel`: only strings with an `http://`/`https://` scheme parse;
the URL decomposition itself is embedded as a split on slashes (the router
only ever consults whether the result is `none`). -/
def parseUrlModel (modelId : String) : Option UrlParsedModel :=
  if ¬ (jsStartsWith modelId "http://" ∨ jsStartsWith modelId "https://") then
    none
  else
    let parts := (modelId.splitOn "/").filter (· ≠ "")
    match parts.getLast? with
    | none => none
    | some last =>
        if parts.length ≤ 2 then none
        else some { baseUrl := String.intercalate "/" (parts.dropLast),
                    modelName := last }

/-- The handler kind `getHandlerForRequest` dispatches to. -/
inductive HandlerKind where
  | native
  | openRouter
  | geminiDirect
  | openaiDirect
  | localProvider (name : String)
  deriving Repr, DecidableEq

/-- `getRemoteProviderHandler` (src/src/proxy-server.ts): remote resolution,
with the `openrouter` name (and any name other than gemini/openai) falling
through by returning `none`. -/
def getRemoteProviderHandler (target : String) : Option HandlerKind :=
  match resolveRemoteProvider target with
  | none => none
  | some r =>
      if r.provider.name = "openrouter" then none
      else if r.provider.name = "gemini" then some .geminiDirect
      else if r.provider.name = "openai" then some .openaiDirect
      else none

/-- `getLocalProviderHandler`: prefix-based local providers, then URL models. -/
def getLocalProviderHandler (target : String) : Option HandlerKind :=
  match resolveProvider target with
  | some r => some (.localProvider r.provider.name)
  | none =>
      match parseUrlModel target with
      | some _ => some (.localProvider "custom-url")
      | none => none

/-- Steps 3-6 of `getHandlerForRequest` (after target-name resolution):
remote provider, then local provider, then the native-vs-OpenRouter
heuristic on `/`. -/
def routeTarget (target : String) : HandlerKind :=
  match getRemoteProviderHandler target with
  | some h => h
  | none =>
      match getLocalProviderHandler target with
      | some h => h
      | none =>
          if ¬ jsIncludesSlash target then .native
          else .openRouter

end Routing

/-! ## A minimal JSON value model (tool inputs and arguments). -/

/-- JSON values, as far as the embedded code inspects them. -/
inductive Json where
  | null
  | bool (b : Bool)
  | num (n : Int)
  | str (s : String)
  | arr (xs : List Json)
  | obj (fields : List (String × Json))
  deriving Repr

mutual

/-- JSON.stringify, restricted to the shapes the embedding produces
(string escaping inside values is not modelled). -/
def Json.render : Json → String
  | .null => "null"
  | .bool true => "true"
  | .bool false => "false"
  | .num n => toString n
  | .str s => "\"" ++ s ++ "\""
  | .arr xs => "[" ++ Json.renderList xs ++ "]"
  | .obj fs => "\x7b" ++ Json.renderFields fs ++ "\x7d"

/-- Render a list of JSON values, comma separated. -/
def Json.renderList : List Json → String
  | [] => ""
  | [x] => Json.render x
  | x :: y :: xs => Json.render x ++ "," ++ Json.renderList (y :: xs)

/-- Render the fields of a JSON object, comma separated. -/
def Json.renderFields : List (String × Json) → String
  | [] => ""
  | [(k, v)] => "\"" ++ k ++ "\":" ++ Json.render v
  | (k, v) :: f :: fs =>
      "\"" ++ k ++ "\":" ++ Json.render v ++ "," ++ Json.renderFields (f :: fs)

end

/-- The keys of a JSON object field list. -/
def jsonKeys (fields : List (String × Json)) : List String := fields.map (·.1)

/-! ## Token tracking (src/src/handlers/local-provider-handler.ts
`writeTokenFile`, src/src/handlers/openai-handler.ts
`updateTokenTracking`/`writeTokenFile`). -/

namespace Tokens

/-- JavaScript `Math.round(num/den)` for `den > 0` (half rounds up). -/
def jsRound (num den : Int) : Int := Int.fdiv (2 * num + den) (2 * den)

/-- `Math.max(0, Math.min(100, Math.round(((cw - total) / cw) * 100)))`,
with the `cw > 0 ? ... : 100` guard. -/
def contextLeftPercent (cw total : Nat) : Nat :=
  if 0 < cw then
    (max 0 (min 100 (jsRound (((cw : Int) - (total : Int)) * 100) (cw : Int)))).toNat
  else 100

/-- The session counters of `LocalProviderHandler`. -/
structure LocalTokenState where
  sessionInputTokens : Nat
  sessionOutputTokens : Nat
  deriving Repr, DecidableEq

/-- The fields of the status file relevant to accounting. -/
structure TokenFileData where
  input_tokens : Nat
  output_tokens : Nat
  total_tokens : Nat
  context_left_percent : Nat
  deriving Repr, DecidableEq

/-- `LocalProviderHandler.writeTokenFile(input, output)`: the latest
positive input replaces the running input (it already represents the full
context), outputs accumulate. -/
def localWriteTokenFile (cw : Nat) (st : LocalTokenState) (input output : Nat) :
    LocalTokenState × TokenFileData :=
  let st1 : LocalTokenState :=
    { sessionInputTokens := if 0 < input then input else st.sessionInputTokens,
      sessionOutputTokens := st.sessionOutputTokens + output }
  let total := st1.sessionInputTokens + st1.sessionOutputTokens
  (st1,
   { input_tokens := st1.sessionInputTokens,
     output_tokens := st1.sessionOutputTokens,
     total_tokens := total,
     context_left_percent := contextLeftPercent cw total })

/-- Per-million pricing, embedded with exact rationals in place of floats. -/
structure ModelPricing where
  inputCostPer1M : ℚ
  outputCostPer1M : ℚ
  deriving Repr, DecidableEq

/-- The session counters of `OpenAIHandler` (the Gemini handler's
`updateTokenTracking` is identical). -/
structure CloudTokenState where
  sessionInputTokens : Nat
  sessionOutputTokens : Nat
  sessionTotalCost : ℚ
  deriving Repr, DecidableEq

/-- `OpenAIHandler.updateTokenTracking(inputTokens, outputTokens)`:
the input counter is replaced by the latest value, outputs and cost
accumulate; the file is written with the latest input and the accumulated
outputs. -/
def openaiUpdateTokenTracking (pricing : ModelPricing) (cw : Nat)
    (st : CloudTokenState) (inputTokens outputTokens : Nat) :
    CloudTokenState × TokenFileData :=
  let st1 : CloudTokenState :=
    { sessionInputTokens := inputTokens,
      sessionOutputTokens := st.sessionOutputTokens + outputTokens,
      sessionTotalCost := st.sessionTotalCost +
        ((inputTokens : ℚ) / 1000000 * pricing.inputCostPer1M +
         (outputTokens : ℚ) / 1000000 * pricing.outputCostPer1M) }
  let total := inputTokens + st1.sessionOutputTokens
  (st1,
   { input_tokens := inputTokens,
     output_tokens := st1.sessionOutputTokens,
     total_tokens := total,
     context_left_percent := contextLeftPercent cw total })

/-- Fold a sequence of `(input, output)` reports through the local tracker. -/
def localFold (cw : Nat) (st : LocalTokenState) (us : List (Nat × Nat)) :
    LocalTokenState :=
  us.foldl (fun s u => (localWriteTokenFile cw s u.1 u.2).1) st

/-- Fold a sequence of `(input, output)` reports through the cloud tracker. -/
def cloudFold (pricing : ModelPricing) (cw : Nat) (st : CloudTokenState)
    (us : List (Nat × Nat)) : CloudTokenState :=
  us.foldl (fun s u => (openaiUpdateTokenTracking pricing cw s u.1 u.2).1) st

end Tokens

/-! ## Conversation pruning (src/unnamed/part_004,
`LocalProviderHandler.pruneConversationHistory` and the pruning branch of
`LocalProviderHandler.handle`). -/

namespace Prune

/-- An OpenAI-format message, restricted to the fields pruning reads:
role, the ids of `tool_calls` entries, and `tool_call_id`. -/
structure PMsg where
  role : String
  tool_calls : Option (List String) := none
  tool_call_id : Option String := none
  deriving Repr, DecidableEq

/-- `messages.findIndex((m, i) => m.role === "user" && (i === 0 ||
messages[0].role !== "system" || i > 0))`, as an index option. -/
def findFirstUserIdx (messages : List PMsg) : Option Nat :=
  (List.range messages.length).find? (fun i =>
    match messages[i]? with
    | some m =>
        decide (m.role = "user" ∧
          (i = 0 ∨ ((messages.head?.map (·.role)) ≠ some "system") ∨ 0 < i))
    | none => false)

/-- Whether message 0 exists and is a system message. -/
def role0IsSystem (messages : List PMsg) : Bool :=
  (messages.head?.map (·.role)) == some "system"

/-- `Math.max(0, messages.length - 12)` (Nat subtraction truncates). -/
def recentStartIdx (messages : List PMsg) : Nat := messages.length - 12

/-- Start of the middle section:
`firstUserIdx !== -1 ? firstUserIdx + 1 : (system ? 1 : 0)`. -/
def middleStartIdx (messages : List PMsg) : Nat :=
  match findFirstUserIdx messages with
  | some k => k + 1
  | none => if role0IsSystem messages then 1 else 0

/-- Whether a message is a tool result matching one of the given call ids. -/
def toolMatches (ids : List String) (m : PMsg) : Bool :=
  m.role == "tool" &&
    (match m.tool_call_id with
     | some tid => ids.contains tid
     | none => false)

/-- One step of the look-ahead for tool results following an assistant
message: stop at the next assistant/user turn, collect matching tool
results. -/
def lookAheadStep (messages : List PMsg) (ids : List String)
    (st : Bool × List Nat) (j : Nat) : Bool × List Nat :=
  if st.1 then st
  else
    match messages[j]? with
    | some m =>
        if toolMatches ids m then (false, st.2 ++ [j])
        else if m.role == "assistant" || m.role == "user" then (true, st.2)
        else (false, st.2)
    | none => (false, st.2)

/-- The look-ahead `for (j = i+1; j < middleEnd && j < i+10; j++)` with its
break on the next turn. -/
def lookAhead (messages : List PMsg) (ids : List String) (i middleEnd : Nat) :
    List Nat :=
  ((List.range' (i + 1) (min middleEnd (i + 10) - (i + 1))).foldl
    (lookAheadStep messages ids) (false, [])).2

/-- The indices contributed to `preservedPairs` by middle index `i`:
the assistant message itself plus its looked-ahead tool results. -/
def pairContribution (messages : List PMsg) (middleEnd i : Nat) : List Nat :=
  match messages[i]? with
  | some m =>
      if m.role == "assistant" &&
          (match m.tool_calls with | some l => decide (0 < l.length) | none => false) then
        i :: lookAhead messages (m.tool_calls.getD []) i middleEnd
      else []
  | none => []

/-- `preservedPairs`, as the list of all contributed indices (the source
uses a JS `Set`; only membership is consumed downstream). -/
def preservedPairs (messages : List PMsg) : List Nat :=
  let middleStart := middleStartIdx messages
  let middleEnd := recentStartIdx messages
  (List.range' middleStart (middleEnd - middleStart)).flatMap
    (pairContribution messages middleEnd)

/-- Insert into a sorted duplicate-free list of naturals. -/
def insertSorted (x : Nat) : List Nat → List Nat
  | [] => [x]
  | y :: ys =>
      if x < y then x :: y :: ys
      else if x = y then y :: ys
      else y :: insertSorted x ys

/-- `Array.from(set).sort((a, b) => a - b)`: the sorted distinct values. -/
def sortDedup (l : List Nat) : List Nat := l.foldl (fun acc x => insertSorted x acc) []

/-- The sorted pair indices. -/
def pairIndices (messages : List PMsg) : List Nat := sortDedup (preservedPairs messages)

/-- The stride-3 picks `pairIndices[0], pairIndices[3], ...`. -/
def stridePicks (messages : List PMsg) : List Nat :=
  let pi := pairIndices messages
  ((List.range pi.length).filter (fun k => k % 3 == 0)).map (fun k => pi.getD k 0)

/-- Whether the message at index `j` is a tool result matching `ids`. -/
def resultMatchAt (messages : List PMsg) (ids : List String) (j : Nat) : Bool :=
  match messages[j]? with
  | some m => toolMatches ids m
  | none => false

/-- All matching tool results after a sampled index, up to the middle end
(the sampling look-up has no break and no 10-message bound). -/
def resultsAfter (messages : List PMsg) (ids : List String) (v middleEnd : Nat) :
    List Nat :=
  (List.range' (v + 1) (middleEnd - (v + 1))).filter (resultMatchAt messages ids)

/-- The indices contributed to `sampledPairs` by one stride pick: the pick
itself, plus — when it is an assistant message whose `tool_calls` field is
present (JS truthiness: an empty array still passes) — its matching tool
results. -/
def sampleContribution (messages : List PMsg) (middleEnd v : Nat) : List Nat :=
  v :: (match messages[v]? with
        | some m =>
            if m.role == "assistant" && m.tool_calls.isSome then
              resultsAfter messages (m.tool_calls.getD []) v middleEnd
            else []
        | none => [])

/-- `sampledPairs` (again a JS `Set`; membership list). -/
def sampledPairs (messages : List PMsg) : List Nat :=
  (stridePicks messages).flatMap (sampleContribution messages (recentStartIdx messages))

/-- The `preservedIndices` set: system message, first user message at a
positive index, sampled pairs, and the recent window. -/
def preservedIndices (messages : List PMsg) : List Nat :=
  (if role0IsSystem messages then [0] else []) ++
  (match findFirstUserIdx messages with
   | some k => if 0 < k then [k] else []
   | none => []) ++
  sampledPairs messages ++
  List.range' (recentStartIdx messages) (messages.length - recentStartIdx messages)

/-- `messages.filter((_, idx) => preservedIndices.has(idx))`. -/
def prunedList (messages : List PMsg) : List PMsg :=
  ((List.range messages.length).filter (· ∈ preservedIndices messages)).filterMap
    (fun i => messages[i]?)

/-- `pruneConversationHistory`: the pruned list and the removed count
(lists of at most 5 messages are returned unchanged). -/
def pruneConversationHistory (messages : List PMsg) : List PMsg × Nat :=
  if messages.length ≤ 5 then (messages, 0)
  else
    let pruned := prunedList messages
    (pruned, messages.length - pruned.length)

/-- The `> 80 %` context check of `handle`; the float comparison
`(total / cw) * 100 > 80` is embedded exactly over the integers. -/
def contextUsageExceeds80 (sessionTotal cw : Nat) : Bool :=
  0 < cw && 80 * cw < sessionTotal * 100

/-- The pruning branch of `LocalProviderHandler.handle`: prune only when
usage exceeds 80 %, pruning has not been triggered before, and the list is
long enough; set the one-shot flag when messages were actually removed. -/
def handlePruneStep (pruningEnabled : Bool) (sessionTotal cw : Nat)
    (messages : List PMsg) : List PMsg × Bool :=
  if contextUsageExceeds80 sessionTotal cw && !pruningEnabled &&
      decide (5 < messages.length) then
    let r := pruneConversationHistory messages
    if 0 < r.2 then (r.1, true) else (messages, pruningEnabled)
  else (messages, pruningEnabled)

/-- A 20-message conversation shaped like the spec's scenario S6 (system,
first user, assistant tool-use / tool-result pairs at 3/4, 7/8 and 11/12,
then chatter); used to instantiate the pruning theorems. -/
def exConversation : List PMsg :=
  [{ role := "system" }, { role := "user" }, { role := "assistant" },
   { role := "assistant", tool_calls := some ["t3"] },
   { role := "tool", tool_call_id := some "t3" }, { role := "user" },
   { role := "assistant" }, { role := "assistant", tool_calls := some ["t7"] },
   { role := "tool", tool_call_id := some "t7" }, { role := "user" },
   { role := "assistant" }, { role := "assistant", tool_calls := some ["t11"] },
   { role := "tool", tool_call_id := some "t11" }, { role := "user" },
   { role := "assistant" }, { role := "user" }, { role := "assistant" },
   { role := "user" }, { role := "assistant" }, { role := "user" }]

/-- The same conversation extended to 26 messages, so that all three tool
pairs fall in the pruned middle section. -/
def cexConversation : List PMsg :=
  exConversation ++
  [{ role := "assistant" }, { role := "user" }, { role := "assistant" },
   { role := "user" }, { role := "assistant" }, { role := "user" }]

end Prune

/-! ## Streaming events and upstream chunk shapes. -/

/-- The payload of a `content_block_delta`. -/
inductive DeltaKind where
  | textDelta (s : String)
  | thinkingDelta (s : String)
  | inputJson (s : String)
  deriving Repr, DecidableEq

/-- The Anthropic SSE events the machines emit (fields irrelevant to the
claims, such as message ids, are omitted). -/
inductive Evt where
  | messageStart
  | ping
  | blockStartText (idx : Nat)
  | blockStartThinking (idx : Nat)
  | blockStartTool (idx : Nat) (id name : String)
  | blockDelta (idx : Nat) (d : DeltaKind)
  | blockStop (idx : Nat)
  | messageDelta (stopReason : String) (outputTokens : Nat)
  | messageStop
  | errorEvt (msg : String)
  | doneSentinel
  deriving Repr, DecidableEq

/-- Whether an event is a `message_delta`. -/
def Evt.isMessageDelta : Evt → Bool
  | .messageDelta _ _ => true
  | _ => false

/-- OpenAI-style usage data. -/
structure Usage where
  prompt_tokens : Nat
  completion_tokens : Nat
  deriving Repr, DecidableEq

/-- The result of `adapter.processTextContent`. -/
structure AdapterResult where
  cleanedText : String
  wasTransformed : Bool
  deriving Repr, DecidableEq

/-- An adapter, as the machines use it: `(textContent, accumulatedText)`. -/
def Adapter := String → String → AdapterResult

/-- `DefaultAdapter.processTextContent`: the identity transformation. -/
def defaultAdapter : Adapter := fun txt _ =>
  { cleanedText := txt, wasTransformed := false }

/-- One `reasoning_details` entry (`type`, `content`, `text`, `summary`). -/
structure RDetail where
  rtype : String
  content : String := ""
  rtext : String := ""
  summary : String := ""
  deriving Repr, DecidableEq

/-- One entry of `delta.tool_calls`. -/
structure ToolCallDelta where
  index : Nat
  tcId : Option String := none
  fnName : Option String := none
  fnArgs : Option String := none
  deriving Repr, DecidableEq

/-- `chunk.choices[0].delta` for OpenAI-style upstreams. -/
structure ORDelta where
  reasoning_details : List RDetail := []
  content : String := ""
  tool_calls : List ToolCallDelta := []
  deriving Repr, DecidableEq

/-- An upstream chunk (usage, delta and finish reason flattened out of
`choices[0]`). -/
structure ORChunk where
  usage : Option Usage := none
  delta : Option ORDelta := none
  finish_reason : Option String := none
  deriving Repr, DecidableEq

/-- One line of the upstream SSE stream, as the reader loop sees it:
a parsed data chunk, the `[DONE]` sentinel, a malformed line (logged and
skipped), or a read error / client disconnect surfacing as an exception. -/
inductive StreamLine where
  | chunk (c : ORChunk)
  | doneMark
  | malformed
  | readErr
  deriving Repr, DecidableEq

/-- Association-list update with JS `Map.set` semantics (existing keys keep
their position; new keys append). -/
def setAssoc {α : Type} : List (Nat × α) → Nat → α → List (Nat × α)
  | [], i, t => [(i, t)]
  | (j, u) :: rest, i, t =>
      if j = i then (j, t) :: rest else (j, u) :: setAssoc rest i t

/-- Association-list lookup (`Map.get`). -/
def getAssoc {α : Type} (l : List (Nat × α)) (i : Nat) : Option α :=
  (l.find? (fun p => p.1 = i)).map (·.2)

/-! ## Tool-call validation (src/src/handlers/shared/openai-compat.ts
`validateToolArguments`; the underlying module tool-call-recovery.ts is not
part of the sources and is modelled from the spec below). -/

/-- A tool schema, as far as validation reads it. -/
structure ToolSchema where
  name : String
  required : List String
  deriving Repr, DecidableEq

/-- The result shape of `validateToolArguments`. -/
structure ValidationResult where
  valid : Bool
  missingParams : List String
  parsedArgs : List (String × Json)
  repaired : Bool

/-- A validator: `(toolName, argsString, schemas, textContent)`. -/
def Validator := String → String → List ToolSchema → String → ValidationResult

/-- Modelled from the spec: the missing module
src/src/handlers/shared/tool-call-recovery.ts (`validateAndRepairToolCall`).
Per spec §4.7: parse the argument string as JSON (failure or a non-object
yields an empty object); compute the required parameters missing from the
parsed keys; when some are missing, infer each from the nearby text — an
inferred value must be non-empty, and if any required parameter cannot be
inferred the repair fails, reporting the missing set.  JSON parsing and the
per-tool inference heuristics are taken as parameters. -/
def validateAndRepairToolCallSpec
    (parseJsonObj : String → Option (List (String × Json)))
    (inferParam : String → String → String → Option String)
    (toolName argsStr : String) (schemas : List ToolSchema)
    (nearbyText : String) : ValidationResult :=
  let args := (parseJsonObj argsStr).getD []
  match schemas.find? (fun s => s.name == toolName) with
  | none => { valid := true, missingParams := [], parsedArgs := args, repaired := false }
  | some schema =>
      let missing := schema.required.filter (fun p => ¬ (jsonKeys args).contains p)
      if missing.isEmpty then
        { valid := true, missingParams := [], parsedArgs := args, repaired := false }
      else
        let inferred := missing.map (fun p => (p, inferParam toolName p nearbyText))
        if inferred.all (fun q => match q.2 with | some v => v != "" | none => false) then
          { valid := true, missingParams := [], repaired := true,
            parsedArgs := args ++ inferred.map (fun q => (q.1, Json.str (q.2.getD ""))) }
        else
          { valid := false, missingParams := missing, parsedArgs := args, repaired := false }

/-! ## The shared OpenAI-compatible streaming machine
(src/src/handlers/shared/openai-compat.ts, `createStreamingResponseHandler`):
the per-stream state, the finish-reason `tool_calls` processing, and the
`finalize` routine. -/

namespace SharedM

/-- A tool entry of the shared machine (`ToolState`). -/
structure ToolSt where
  tsId : String
  name : String
  blockIndex : Nat
  started : Bool
  closed : Bool
  arguments : String
  buffered : Bool
  deriving Repr, DecidableEq

/-- The per-stream state (`StreamingState`); the JS `-1` index sentinels are
embedded as `0` — the indices are only read under their started flags. -/
structure MState where
  usage : Option Usage := none
  finalized : Bool := false
  textStarted : Bool := false
  textIdx : Nat := 0
  reasoningStarted : Bool := false
  reasoningIdx : Nat := 0
  curIdx : Nat := 0
  tools : List (Nat × ToolSt) := []
  accumulatedText : String := ""
  deriving Repr, DecidableEq

/-- The user-visible error text for a failed tool call. -/
def errorMsgText (name : String) (missing : List String) : String :=
  "\n\n⚠️ Tool call \"" ++ name ++ "\" failed: missing required parameters: " ++
  String.intercalate ", " missing ++
  ". Local models sometimes generate incomplete tool calls. Please try again or use a model with better tool support."

/-- One iteration of the `finish_reason === "tool_calls"` loop over the
tool entries (the entry is the one the iteration visits; earlier iterations
only touch other entries). -/
def finishStep (validate : Validator) (schemas : List ToolSchema)
    (acc : MState × List Evt) (entry : Nat × ToolSt) : MState × List Evt :=
  let st := acc.1
  let evs := acc.2
  let t := entry.2
  if t.closed then acc
  else if schemas.length = 0 then
    -- no schemas: no validation; just close a started tool
    if t.started then
      ({ st with tools := setAssoc st.tools entry.1 { t with closed := true } },
       evs ++ [Evt.blockStop t.blockIndex])
    else acc
  else
    let v := validate t.name t.arguments schemas st.accumulatedText
    if v.repaired ∧ t.buffered ∧ ¬ t.started then
      -- first emission of a buffered tool: one complete repaired block
      let repairedJson := Json.render (Json.obj v.parsedArgs)
      ({ st with tools := setAssoc st.tools entry.1 { t with started := true, closed := true } },
       evs ++ [Evt.blockStartTool t.blockIndex t.tsId t.name,
               Evt.blockDelta t.blockIndex (.inputJson repairedJson),
               Evt.blockStop t.blockIndex])
    else if v.repaired ∧ t.started then
      -- already streaming: close the old block, emit a fresh repaired one
      let repairedJson := Json.render (Json.obj v.parsedArgs)
      let repairedIdx := st.curIdx
      ({ st with curIdx := repairedIdx + 1,
                 tools := setAssoc st.tools entry.1 { t with closed := true } },
       evs ++ [Evt.blockStop t.blockIndex,
               Evt.blockStartTool repairedIdx ("tool_repaired_" ++ toString repairedIdx) t.name,
               Evt.blockDelta repairedIdx (.inputJson repairedJson),
               Evt.blockStop repairedIdx])
    else if ¬ v.valid then
      -- repair failed: emit a text error block, do not forward the tool
      let errorIdx := if t.buffered then t.blockIndex else st.curIdx
      let st1 := if t.buffered then st else { st with curIdx := st.curIdx + 1 }
      let extraStop := if t.started ∧ ¬ t.buffered then [Evt.blockStop t.blockIndex] else []
      ({ st1 with tools := setAssoc st1.tools entry.1 { t with closed := true } },
       evs ++ [Evt.blockStartText errorIdx,
               Evt.blockDelta errorIdx (.textDelta (errorMsgText t.name v.missingParams)),
               Evt.blockStop errorIdx] ++ extraStop)
    else if t.buffered ∧ ¬ t.started then
      -- valid buffered tool: emit it as one complete block
      let argsJson := Json.render (Json.obj v.parsedArgs)
      ({ st with tools := setAssoc st.tools entry.1 { t with started := true, closed := true } },
       evs ++ [Evt.blockStartTool t.blockIndex t.tsId t.name,
               Evt.blockDelta t.blockIndex (.inputJson argsJson),
               Evt.blockStop t.blockIndex])
    else
      -- non-buffered valid tool call: just close it
      if t.started then
        ({ st with tools := setAssoc st.tools entry.1 { t with closed := true } },
         evs ++ [Evt.blockStop t.blockIndex])
      else acc

/-- The whole `finish_reason === "tool_calls"` handler. -/
def processFinish (validate : Validator) (schemas : List ToolSchema)
    (st : MState) : MState × List Evt :=
  st.tools.foldl (finishStep validate schemas) (st, [])

/-- Close every started, unclosed tool entry (shared by `finalize`). -/
def closeTools (acc : MState × List Evt) (entry : Nat × ToolSt) : MState × List Evt :=
  let t := entry.2
  if t.started ∧ ¬ t.closed then
    ({ acc.1 with tools := setAssoc acc.1.tools entry.1 { t with closed := true } },
     acc.2 ++ [Evt.blockStop t.blockIndex])
  else acc

/-- Emit one text-extracted tool call as a complete tool-use block. -/
def emitExtracted (acc : MState × List Evt) (tc : String × Json) : MState × List Evt :=
  let toolIdx := acc.1.curIdx
  ({ acc.1 with curIdx := toolIdx + 1 },
   acc.2 ++ [Evt.blockStartTool toolIdx ("tool_" ++ toString toolIdx) tc.1,
             Evt.blockDelta toolIdx (.inputJson (Json.render tc.2)),
             Evt.blockStop toolIdx])

/-- `finalize(reason, err)` of the shared machine.  `extract` stands for
`extractToolCallsFromText` (tool-call-recovery.ts, not in the sources).
Returns the state, the emitted events, the token-callback invocations, and
whether the body ran (the `finalized` guard). -/
def finalize (extract : String → List (String × Json)) (st : MState)
    (isError : Bool) (errMsg : String) :
    MState × List Evt × List (Nat × Nat) × Bool :=
  if st.finalized then (st, [], [], false)
  else
    let st0 := { st with finalized := true }
    let textToolCalls := extract st0.accumulatedText
    let p1 : MState × List Evt :=
      if 0 < textToolCalls.length then
        let pa : MState × List Evt :=
          if st0.textStarted then
            ({ st0 with textStarted := false }, [Evt.blockStop st0.textIdx])
          else (st0, [])
        textToolCalls.foldl emitExtracted pa
      else (st0, [])
    let evs2 := if p1.1.reasoningStarted then [Evt.blockStop p1.1.reasoningIdx] else []
    let evs3 := if p1.1.textStarted then [Evt.blockStop p1.1.textIdx] else []
    let p4 := p1.1.tools.foldl closeTools (p1.1, [])
    let stopReason := if 0 < textToolCalls.length then "tool_use" else "end_turn"
    let evs5 :=
      if isError then [Evt.errorEvt errMsg]
      else [Evt.messageDelta stopReason ((p4.1.usage.map (·.completion_tokens)).getD 0),
            Evt.messageStop]
    let writes :=
      match p4.1.usage with
      | some u => [(u.prompt_tokens, u.completion_tokens)]
      | none => [(100, (p4.1.accumulatedText.length + 3) / 4)]
    (p4.1, p1.2 ++ evs2 ++ evs3 ++ p4.2 ++ evs5 ++ [Evt.doneSentinel], writes, true)

end SharedM

/-! ## The OpenRouter streaming machine
(src/src/handlers/openrouter-handler.ts, `handleStreamingResponse`). -/

namespace ORM

/-- A tool entry of the OpenRouter machine. -/
structure ToolSt where
  tsId : String
  name : String
  blockIndex : Nat
  started : Bool
  closed : Bool
  arguments : String
  deriving Repr, DecidableEq

/-- The per-stream state; the JS `-1` index sentinels are embedded as `0`
(the indices are only read under their started flags). -/
structure MState where
  usage : Option Usage := none
  finalized : Bool := false
  textStarted : Bool := false
  textIdx : Nat := 0
  thinkingStarted : Bool := false
  thinkingIdx : Nat := 0
  curIdx : Nat := 0
  tools : List (Nat × ToolSt) := []
  accumulatedThinking : String := ""
  deriving Repr, DecidableEq

/-- Process one `reasoning_details` entry: `reasoning.text` /
`reasoning.summary` entries open a thinking block (if needed) and emit a
thinking delta; everything else (e.g. `reasoning.encrypted`) emits nothing. -/
def processRDetail (st : MState) (d : RDetail) : MState × List Evt :=
  if d.rtype == "reasoning.text" || d.rtype == "reasoning.summary" then
    let thinkingContent := jsOr d.content (jsOr d.rtext d.summary)
    if thinkingContent = "" then (st, [])
    else if st.thinkingStarted then
      ({ st with accumulatedThinking := st.accumulatedThinking ++ thinkingContent },
       [Evt.blockDelta st.thinkingIdx (.thinkingDelta thinkingContent)])
    else
      let idx := st.curIdx
      ({ st with thinkingIdx := idx, curIdx := idx + 1, thinkingStarted := true,
                 accumulatedThinking := st.accumulatedThinking ++ thinkingContent },
       [Evt.blockStartThinking idx,
        Evt.blockDelta idx (.thinkingDelta thinkingContent)])
  else (st, [])

/-- Process all `reasoning_details` of one delta. -/
def processRDetails (st : MState) (ds : List RDetail) : MState × List Evt :=
  ds.foldl (fun acc d =>
    let p := processRDetail acc.1 d
    (p.1, acc.2 ++ p.2)) (st, [])

/-- Process `delta.content`: close an open thinking block, open the text
block if needed, run the adapter, and emit the cleaned text. -/
def processContent (adapter : Adapter) (st : MState) (txt : String) :
    MState × List Evt :=
  if txt = "" then (st, [])
  else
    let p1 : MState × List Evt :=
      if st.thinkingStarted then
        ({ st with thinkingStarted := false }, [Evt.blockStop st.thinkingIdx])
      else (st, [])
    let p2 : MState × List Evt :=
      if p1.1.textStarted then (p1.1, [])
      else
        ({ p1.1 with textIdx := p1.1.curIdx, curIdx := p1.1.curIdx + 1,
                     textStarted := true },
         [Evt.blockStartText p1.1.curIdx])
    let res := adapter txt ""
    let evs3 :=
      if res.cleanedText = "" then []
      else [Evt.blockDelta p2.1.textIdx (.textDelta res.cleanedText)]
    (p2.1, p1.2 ++ p2.2 ++ evs3)

/-- The `tc.function?.name` part of one tool-call delta: create (closing
open thinking and text blocks) and/or start the tool entry. -/
def processToolName (st : MState) (tc : ToolCallDelta) :
    MState × List Evt × Option ToolSt :=
  let t0 := getAssoc st.tools tc.index
  match tc.fnName with
  | none => (st, ([] : List Evt), t0)
  | some nm =>
      match t0 with
      | some t =>
          if t.started then (st, [], some t)
          else
            let t' := { t with started := true }
            ({ st with tools := setAssoc st.tools tc.index t' },
             [Evt.blockStartTool t.blockIndex t.tsId t.name], some t')
      | none =>
          let pa : MState × List Evt :=
            if st.thinkingStarted then
              ({ st with thinkingStarted := false }, [Evt.blockStop st.thinkingIdx])
            else (st, [])
          let pb : MState × List Evt :=
            if pa.1.textStarted then
              ({ pa.1 with textStarted := false }, [Evt.blockStop pa.1.textIdx])
            else (pa.1, [])
          let bi := pb.1.curIdx
          let t' : ToolSt :=
            { tsId := tc.tcId.getD ("tool_auto_" ++ toString tc.index),
              name := nm, blockIndex := bi, started := true, closed := false,
              arguments := "" }
          ({ pb.1 with curIdx := bi + 1, tools := setAssoc pb.1.tools tc.index t' },
           pa.2 ++ pb.2 ++ [Evt.blockStartTool bi t'.tsId t'.name], some t')

/-- Process one entry of `delta.tool_calls`: a new function name closes any
open thinking and text blocks and opens a tool block; arguments accumulate
and are streamed as `input_json_delta`. -/
def processToolCallDelta (st : MState) (tc : ToolCallDelta) : MState × List Evt :=
  let named := processToolName st tc
  match tc.fnArgs, named.2.2 with
  | some args, some t =>
      let t' := { t with arguments := t.arguments ++ args }
      ({ named.1 with tools := setAssoc named.1.tools tc.index t' },
       named.2.1 ++ [Evt.blockDelta t.blockIndex (.inputJson args)])
  | _, _ => (named.1, named.2.1)

/-- Process all tool-call deltas of one chunk. -/
def processToolCalls (st : MState) (tcs : List ToolCallDelta) : MState × List Evt :=
  tcs.foldl (fun acc tc =>
    let p := processToolCallDelta acc.1 tc
    (p.1, acc.2 ++ p.2)) (st, [])

/-- The user-visible error text for a failed tool call. -/
def errorMsgText (name : String) (missing : List String) : String :=
  "\n\n⚠️ Tool call \"" ++ name ++ "\" failed validation: missing required parameters: " ++
  String.intercalate ", " missing ++
  ". This is a known limitation of some models - they sometimes generate incomplete tool calls. Please try again or use a different model."

/-- One iteration of the `finish_reason === "tool_calls"` loop: validation
failure emits a text error block and leaves the started tool block without
a stop; success stops the block. -/
def finishStep (validate : Validator) (schemas : List ToolSchema)
    (acc : MState × List Evt) (entry : Nat × ToolSt) : MState × List Evt :=
  let st := acc.1
  let evs := acc.2
  let t := entry.2
  if t.started ∧ ¬ t.closed then
    if 0 < schemas.length then
      let v := validate t.name t.arguments schemas ""
      if ¬ v.valid then
        let errorIdx := st.curIdx
        ({ st with curIdx := errorIdx + 1,
                   tools := setAssoc st.tools entry.1 { t with closed := true } },
         evs ++ [Evt.blockStartText errorIdx,
                 Evt.blockDelta errorIdx (.textDelta (errorMsgText t.name v.missingParams)),
                 Evt.blockStop errorIdx])
      else
        ({ st with tools := setAssoc st.tools entry.1 { t with closed := true } },
         evs ++ [Evt.blockStop t.blockIndex])
    else
      ({ st with tools := setAssoc st.tools entry.1 { t with closed := true } },
       evs ++ [Evt.blockStop t.blockIndex])
  else acc

/-- The whole `finish_reason === "tool_calls"` handler. -/
def processFinish (validate : Validator) (schemas : List ToolSchema)
    (st : MState) : MState × List Evt :=
  st.tools.foldl (finishStep validate schemas) (st, [])

/-- Process one parsed chunk. -/
def processChunk (adapter : Adapter) (validate : Validator)
    (schemas : List ToolSchema) (st : MState) (c : ORChunk) : MState × List Evt :=
  let st0 := match c.usage with | some u => { st with usage := some u } | none => st
  let p1 : MState × List Evt :=
    match c.delta with
    | none => (st0, [])
    | some d =>
        let pa := processRDetails st0 d.reasoning_details
        let pb := processContent adapter pa.1 d.content
        let pc := processToolCalls pb.1 d.tool_calls
        (pc.1, pa.2 ++ pb.2 ++ pc.2)
  if c.finish_reason == some "tool_calls" then
    let p2 := processFinish validate schemas p1.1
    (p2.1, p1.2 ++ p2.2)
  else p1

/-- Close every started, unclosed tool entry (used by `finalize`). -/
def closeTools (acc : MState × List Evt) (entry : Nat × ToolSt) : MState × List Evt :=
  let t := entry.2
  if t.started ∧ ¬ t.closed then
    ({ acc.1 with tools := setAssoc acc.1.tools entry.1 { t with closed := true } },
     acc.2 ++ [Evt.blockStop t.blockIndex])
  else acc

/-- `finalize(reason, err)`: close open blocks, write the token file only
when usage was received, then `message_delta` with stop reason `end_turn`
(or an error event) and the sentinel.  Returns state, events, the token
writes and whether the body ran. -/
def finalize (st : MState) (isError : Bool) (errMsg : String) :
    MState × List Evt × List (Nat × Nat) × Bool :=
  if st.finalized then (st, [], [], false)
  else
    let st0 := { st with finalized := true }
    let p1 : MState × List Evt :=
      if st0.thinkingStarted then
        ({ st0 with thinkingStarted := false }, [Evt.blockStop st0.thinkingIdx])
      else (st0, [])
    let p2 : MState × List Evt :=
      if p1.1.textStarted then
        ({ p1.1 with textStarted := false }, [Evt.blockStop p1.1.textIdx])
      else (p1.1, [])
    let p3 := p2.1.tools.foldl closeTools (p2.1, [])
    let writes :=
      match p3.1.usage with
      | some u => [(u.prompt_tokens, u.completion_tokens)]
      | none => []
    let evs4 :=
      if isError then [Evt.errorEvt errMsg]
      else [Evt.messageDelta "end_turn" ((p3.1.usage.map (·.completion_tokens)).getD 0),
            Evt.messageStop]
    (p3.1, p1.2 ++ p2.2 ++ p3.2 ++ evs4 ++ [Evt.doneSentinel], writes, true)

/-- The initial per-stream state. -/
def initState : MState := {}

/-- The reader loop from a given state: `[DONE]` finalises and returns,
malformed lines are skipped, a read error (or client disconnect) finalises
on the error path, and stream end finalises as `unexpected`. -/
def runFrom (adapter : Adapter) (validate : Validator)
    (schemas : List ToolSchema) (st : MState) :
    List StreamLine → List Evt × List (Nat × Nat) × Nat
  | [] =>
      let f := finalize st false ""
      (f.2.1, f.2.2.1, if f.2.2.2 then 1 else 0)
  | .chunk c :: rest =>
      let p := processChunk adapter validate schemas st c
      let r := runFrom adapter validate schemas p.1 rest
      (p.2 ++ r.1, r.2.1, r.2.2)
  | .doneMark :: _ =>
      let f := finalize st false ""
      (f.2.1, f.2.2.1, if f.2.2.2 then 1 else 0)
  | .malformed :: rest => runFrom adapter validate schemas st rest
  | .readErr :: _ =>
      let f := finalize st true "read error"
      (f.2.1, f.2.2.1, if f.2.2.2 then 1 else 0)

/-- A whole stream: `message_start`, `ping`, then the reader loop. -/
def run (adapter : Adapter) (validate : Validator) (schemas : List ToolSchema)
    (inputs : List StreamLine) : List Evt × List (Nat × Nat) × Nat :=
  let r := runFrom adapter validate schemas initState inputs
  (Evt.messageStart :: Evt.ping :: r.1, r.2.1, r.2.2)

end ORM

/-! ## The Gemini handler (src/unnamed/part_006): message conversion with
the tool-call-id → name map, and stream finalisation. -/

namespace GeminiM

/-- An Anthropic content block, as far as the Gemini converter reads it. -/
inductive CBlock where
  | text (s : String)
  | image (mediaType dataB64 : String)
  | toolUse (id name : String) (input : Json)
  | toolResult (toolUseId : String) (content : String)
  deriving Repr

/-- Anthropic message content: a plain string or a block array. -/
inductive MsgContent where
  | str (s : String)
  | blocks (bs : List CBlock)
  deriving Repr

/-- An Anthropic message. -/
structure CMsg where
  role : String
  content : MsgContent
  deriving Repr

/-- A Gemini content part. -/
inductive GPart where
  | textPart (s : String)
  | inlineData (mimeType dataB64 : String)
  | functionCall (name : String) (args : Json)
  | functionResponse (name content : String)
  deriving Repr

/-- A Gemini message. -/
structure GMsg where
  role : String
  parts : List GPart
  deriving Repr

/-- The handler's `toolCallMap` (tool_use_id → function name). -/
def ToolCallMap := List (String × String)

/-- `Map.get`. -/
def mapGet (m : ToolCallMap) (k : String) : Option String :=
  (m.find? (fun p => p.1 == k)).map (·.2)

/-- `Map.set` (overwrite in place, append when new). -/
def mapSet (m : ToolCallMap) (k v : String) : ToolCallMap :=
  match m with
  | [] => [(k, v)]
  | (k', v') :: rest =>
      if k' == k then (k', v) :: rest else (k', v') :: mapSet rest k v

/-- Convert one user-side block (`convertUserMessageParts` body): a tool
result whose id has no map entry is dropped (with a warning). -/
def userBlockParts (m : ToolCallMap) : CBlock → List GPart
  | .text s => [.textPart s]
  | .image mt d => [.inlineData mt d]
  | .toolUse _ _ _ => []
  | .toolResult tid c =>
      match mapGet m tid with
      | some fn => [.functionResponse fn c]
      | none => []

/-- `convertUserMessageParts`. -/
def convertUserMessageParts (m : ToolCallMap) (msg : CMsg) : List GPart :=
  match msg.content with
  | .blocks bs => bs.foldl (fun acc b => acc ++ userBlockParts m b) []
  | .str s => [.textPart s]

/-- `convertAssistantMessageParts`: emits `functionCall` parts and records
the tool_use_id → name mapping. -/
def convertAssistantMessageParts (m : ToolCallMap) (msg : CMsg) :
    List GPart × ToolCallMap :=
  match msg.content with
  | .blocks bs =>
      bs.foldl (fun (acc : List GPart × ToolCallMap) b =>
        match b with
        | .text s => (acc.1 ++ [.textPart s], acc.2)
        | .toolUse tid nm input => (acc.1 ++ [.functionCall nm input], mapSet acc.2 tid nm)
        | _ => acc) ([], m)
  | .str s => ([.textPart s], m)

/-- `convertToGeminiMessages` with an explicit initial map (the handler's
map persists across requests of a conversation). -/
def convertToGeminiMessages (m0 : ToolCallMap) (msgs : List CMsg) :
    List GMsg × ToolCallMap :=
  msgs.foldl (fun (acc : List GMsg × ToolCallMap) msg =>
    if msg.role == "user" then
      let parts := convertUserMessageParts acc.2 msg
      (if 0 < parts.length then acc.1 ++ [⟨"user", parts⟩] else acc.1, acc.2)
    else if msg.role == "assistant" then
      let r := convertAssistantMessageParts acc.2 msg
      (if 0 < r.1.length then acc.1 ++ [⟨"model", r.1⟩] else acc.1, r.2)
    else acc) ([], m0)

/-- The map state after processing a list of messages. -/
def mapAfter (m0 : ToolCallMap) (msgs : List CMsg) : ToolCallMap :=
  (convertToGeminiMessages m0 msgs).2

/-- The last id → name binding produced by a block list (later blocks win). -/
def blocksLastBinding (tid : String) : List CBlock → Option String
  | [] => none
  | b :: bs =>
      match blocksLastBinding tid bs with
      | some nm => some nm
      | none =>
          match b with
          | .toolUse tid' nm _ => if tid' == tid then some nm else none
          | _ => none

/-- The last id → name binding produced by the tool-use blocks of one
message, `none` for non-assistant messages. -/
def lastBindingMsg (msg : CMsg) (tid : String) : Option String :=
  if msg.role == "assistant" then
    match msg.content with
    | .blocks bs => blocksLastBinding tid bs
    | .str _ => none
  else none

/-- The last binding for `tid` across a message list (later messages win). -/
def lastBinding (tid : String) : List CMsg → Option String
  | [] => none
  | msg :: msgs =>
      match lastBinding tid msgs with
      | some nm => some nm
      | none => lastBindingMsg msg tid

/-- The map update one message performs (`user` messages leave the map
untouched; `assistant` messages record their tool-use bindings). -/
def stepMap (m : ToolCallMap) (msg : CMsg) : ToolCallMap :=
  if msg.role == "user" then m
  else if msg.role == "assistant" then (convertAssistantMessageParts m msg).2
  else m

/-- The user tool-result message of the round-trip example. -/
def exRoundtripUser : CMsg :=
  { role := "user", content := .blocks [.toolResult "toolu_1" "contents"] }

/-- A two-turn round-trip conversation: the assistant calls tool `Read`
with id `toolu_1`; the user turn returns the matching tool result. -/
def exRoundtripMsgs : List CMsg :=
  [{ role := "assistant",
     content := .blocks
       [.text "using tool",
        .toolUse "toolu_1" "Read" (Json.obj [("file_path", Json.str "/tmp/a")])] },
   exRoundtripUser]

/-- Gemini usage metadata. -/
structure GUsage where
  promptTokenCount : Nat
  candidatesTokenCount : Nat
  deriving Repr, DecidableEq

/-- A tool entry of the Gemini streaming machine. -/
structure ToolSt where
  tsId : String
  name : String
  blockIndex : Nat
  started : Bool
  closed : Bool
  arguments : String
  deriving Repr, DecidableEq

/-- The Gemini per-stream state. -/
structure MState where
  usage : Option GUsage := none
  finalized : Bool := false
  textStarted : Bool := false
  textIdx : Nat := 0
  thinkingStarted : Bool := false
  thinkingIdx : Nat := 0
  curIdx : Nat := 0
  tools : List (Nat × ToolSt) := []
  accumulatedText : String := ""
  deriving Repr, DecidableEq

/-- Close every started, unclosed tool entry. -/
def closeTools (acc : MState × List Evt) (entry : Nat × ToolSt) : MState × List Evt :=
  let t := entry.2
  if t.started ∧ ¬ t.closed then
    ({ acc.1 with tools := setAssoc acc.1.tools entry.1 { t with closed := true } },
     acc.2 ++ [Evt.blockStop t.blockIndex])
  else acc

/-- `GeminiHandler` stream `finalize`: close open blocks, update token
tracking only when usage metadata was received, then `message_delta` whose
stop reason is `tool_use` exactly when any tool block was emitted. -/
def finalize (st : MState) (isError : Bool) (errMsg : String) :
    MState × List Evt × List (Nat × Nat) × Bool :=
  if st.finalized then (st, [], [], false)
  else
    let st0 := { st with finalized := true }
    let evs1 := if st0.thinkingStarted then [Evt.blockStop st0.thinkingIdx] else []
    let evs2 := if st0.textStarted then [Evt.blockStop st0.textIdx] else []
    let p3 := st0.tools.foldl closeTools (st0, [])
    let writes :=
      match p3.1.usage with
      | some u => [(u.promptTokenCount, u.candidatesTokenCount)]
      | none => []
    let evs4 :=
      if isError then [Evt.errorEvt errMsg]
      else
        let hasToolCalls := 0 < p3.1.tools.length
        [Evt.messageDelta (if hasToolCalls then "tool_use" else "end_turn")
           ((p3.1.usage.map (·.candidatesTokenCount)).getD 0),
         Evt.messageStop]
    (p3.1, evs1 ++ evs2 ++ p3.2 ++ evs4 ++ [Evt.doneSentinel], writes, true)

end GeminiM

/-- A validator instance for runs in which no tool schemas are supplied
(the machines never consult the validator then). -/
def anyValidator : Validator := fun _ _ _ _ =>
  { valid := true, missingParams := [], parsedArgs := [], repaired := false }

/-- A structured tool-call delta naming `Bash` at upstream index 0. -/
def exToolCallDelta : ToolCallDelta :=
  { index := 0, tcId := some "call_1", fnName := some "Bash",
    fnArgs := some "\x7b\"command\":\"ls\"\x7d" }

/-- An upstream stream carrying one structured tool call, its finish
reason, and the `[DONE]` sentinel. -/
def exToolStream : List StreamLine :=
  [StreamLine.chunk { delta := some { tool_calls := [exToolCallDelta] } },
   StreamLine.chunk { finish_reason := some "tool_calls" },
   StreamLine.doneMark]

/-- An upstream stream carrying one text chunk and no usage data. -/
def exTextStream : List StreamLine :=
  [StreamLine.chunk { delta := some { content := "hello" } },
   StreamLine.doneMark]

/-- An upstream stream interleaving reasoning, text, reasoning again, and
an invalid structured tool call (arguments missing a required parameter). -/
def exInterleavedStream : List StreamLine :=
  [StreamLine.chunk { delta := some { reasoning_details :=
      [{ rtype := "reasoning.text", content := "let me think" }] } },
   StreamLine.chunk { delta := some { content := "partial answer" } },
   StreamLine.chunk { delta := some { reasoning_details :=
      [{ rtype := "reasoning.text", content := "more thinking" }] } },
   StreamLine.chunk { delta := some { tool_calls :=
      [{ index := 0, tcId := some "call_9", fnName := some "Bash",
         fnArgs := some "\x7b\x7d" }] } },
   StreamLine.chunk { finish_reason := some "tool_calls" },
   StreamLine.doneMark]

/-- A concrete JSON-object parser oracle for instantiating the
spec-modelled recovery on the inputs the examples use. -/
def exParseArgs : String → Option (List (String × Json)) := fun s =>
  if s = "\x7b\x7d" then some []
  else if s = "\x7b\"a\":1\x7d" then some [("a", Json.num 1)]
  else none

/-- An inference oracle that never infers anything. -/
def exInferFail : String → String → String → Option String := fun _ _ _ => none

/-- An inference oracle that infers a non-empty value for every missing
parameter. -/
def exInferOk : String → String → String → Option String :=
  fun _ p _ => some ("from_text_" ++ p)

/-- A schema whose tool `Bash` requires the parameters `a` and `b`. -/
def exSchemaBash : ToolSchema := { name := "Bash", required := ["a", "b"] }

/-- A schema whose tool `Bash` requires the parameter `command`. -/
def exSchemaCmd : ToolSchema := { name := "Bash", required := ["command"] }

/-- One step of the open-block checker over an event: starts push their
index, a stop must find its index still open (else the sentinel `none`
records the violation), every other event is ignored. -/
def stepOpen : Option (List Nat) → Evt → Option (List Nat)
  | none, _ => none
  | some l, Evt.blockStartText i => some (i :: l)
  | some l, Evt.blockStartThinking i => some (i :: l)
  | some l, Evt.blockStartTool i _ _ => some (i :: l)
  | some l, Evt.blockStop i => if i ∈ l then some (l.erase i) else none
  | some l, _ => some l

/-- The still-open block indices after an event list (`none` when some
stop did not match a still-open start). -/
def openBlocks (evs : List Evt) : Option (List Nat) := evs.foldl stepOpen (some [])

/-- Every `content_block_stop` in the list stops a previously opened,
still-open index. -/
def stopsMatchOpen (evs : List Evt) : Bool := (openBlocks evs).isSome

/-- The stop-matching invariant between an OpenRouter machine state and
the checker's open-block list: every tracked open block (the flagged
thinking and text blocks and every unclosed tool entry) is in the list
and below the index counter, the tracked indices are pairwise distinct,
every tool entry is started, and the tool keys are unique. -/
structure InvOpen (st : ORM.MState) (l : List Nat) : Prop where
  think : st.thinkingStarted = true → st.thinkingIdx ∈ l ∧ st.thinkingIdx < st.curIdx
  text : st.textStarted = true → st.textIdx ∈ l ∧ st.textIdx < st.curIdx
  tool : ∀ e ∈ st.tools, e.2.closed = false →
    e.2.blockIndex ∈ l ∧ e.2.blockIndex < st.curIdx
  allStarted : ∀ e ∈ st.tools, e.2.started = true
  tt : st.thinkingStarted = true → st.textStarted = true →
    st.thinkingIdx ≠ st.textIdx
  toolThink : ∀ e ∈ st.tools, e.2.closed = false → st.thinkingStarted = true →
    e.2.blockIndex ≠ st.thinkingIdx
  toolText : ∀ e ∈ st.tools, e.2.closed = false → st.textStarted = true →
    e.2.blockIndex ≠ st.textIdx
  toolTool : ∀ e ∈ st.tools, ∀ f ∈ st.tools, e.1 ≠ f.1 → e.2.closed = false →
    f.2.closed = false → e.2.blockIndex ≠ f.2.blockIndex
  keys : (st.tools.map (·.1)).Nodup

/-- A buffered, not-yet-started tool entry whose accumulated arguments
parse to the object with the single field `a`. -/
def exBrokenTool : SharedM.ToolSt :=
  { tsId := "call_1", name := "Bash", blockIndex := 0, started := false,
    closed := false, arguments := "\x7b\"a\":1\x7d", buffered := true }

/-- An OpenRouter stream state with an open thinking block at index 0. -/
def exThinkOpen : ORM.MState := { thinkingStarted := true, curIdx := 1 }

/-- An OpenRouter stream state with an open thinking block at index 0 and
an open text block at index 1. -/
def exOpenBoth : ORM.MState :=
  { thinkingStarted := true, textStarted := true, textIdx := 1, curIdx := 2 }

/-- Whether two character lists disagree at some position within both of
their lengths (so one can never be a prefix of any extension of the other). -/
def mismatchWithin : List Char → List Char → Bool
  | [], _ => false
  | _ :: _, [] => false
  | c :: p, d :: a => if c ≠ d then true else mismatchWithin p a

/-! # Theorems -/

/-! ## Helper lemmas. -/

theorem isPrefixOf_append_eq_false {p a : List Char} (h : mismatchWithin p a = true) :
    ∀ s : List Char, p.isPrefixOf (a ++ s) = false := by
  induction p generalizing a with
  | nil => simp [mismatchWithin] at h
  | cons c p ih =>
      cases a with
      | nil => simp [mismatchWithin] at h
      | cons d a =>
          intro s
          by_cases hcd : c = d
          · subst hcd
            simp [mismatchWithin] at h
            simp [List.isPrefixOf, ih h s]
          · simp [List.isPrefixOf, hcd]

theorem jsStartsWith_mismatch (p a s : String) (h : mismatchWithin p.data a.data = true) :
    jsStartsWith (a ++ s) p = false := by
  simp [jsStartsWith, String.data_append, isPrefixOf_append_eq_false h]

theorem jsStartsWith_append_self (a s : String) : jsStartsWith (a ++ s) a = true := by
  simp [jsStartsWith, String.data_append]

/-! ## C9 — prefix routing. -/

/-- C9: every model id beginning with `oai/` routes to the direct OpenAI
provider, and every model id beginning with `openai/` matches no
remote-provider prefix and falls through to the OpenRouter aggregator. -/
theorem c9_oai_openai_prefix_routing (s : String) :
    Routing.routeTarget ("oai/" ++ s) = Routing.HandlerKind.openaiDirect ∧
    Routing.routeTarget ("openai/" ++ s) = Routing.HandlerKind.openRouter := by
  constructor <;>
  · simp only [Routing.routeTarget, Routing.getRemoteProviderHandler,
      Routing.resolveRemoteProvider, Routing.resolveRemoteProvider.go,
      Routing.matchPrefixes, Routing.getRemoteProviders,
      Routing.getLocalProviderHandler, Routing.resolveProvider,
      Routing.resolveProvider.go, Routing.getLocalProviders,
      Routing.parseUrlModel,
      jsStartsWith_append_self,
      jsStartsWith_mismatch _ _ s (by decide : mismatchWithin "g/".data "oai/".data = true),
      jsStartsWith_mismatch _ _ s (by decide : mismatchWithin "gemini/".data "oai/".data = true),
      jsStartsWith_mismatch _ _ s (by decide : mismatchWithin "g/".data "openai/".data = true),
      jsStartsWith_mismatch _ _ s (by decide : mismatchWithin "gemini/".data "openai/".data = true),
      jsStartsWith_mismatch _ _ s (by decide : mismatchWithin "oai/".data "openai/".data = true),
      jsStartsWith_mismatch _ _ s (by decide : mismatchWithin "or/".data "oai/".data = true),
      jsStartsWith_mismatch _ _ s (by decide : mismatchWithin "or/".data "openai/".data = true),
      jsStartsWith_mismatch _ _ s (by decide : mismatchWithin "mmax/".data "openai/".data = true),
      jsStartsWith_mismatch _ _ s (by decide : mismatchWithin "mm/".data "openai/".data = true),
      jsStartsWith_mismatch _ _ s (by decide : mismatchWithin "kimi/".data "openai/".data = true),
      jsStartsWith_mismatch _ _ s (by decide : mismatchWithin "moonshot/".data "openai/".data = true),
      jsStartsWith_mismatch _ _ s (by decide : mismatchWithin "glm/".data "openai/".data = true),
      jsStartsWith_mismatch _ _ s (by decide : mismatchWithin "zhipu/".data "openai/".data = true),
      jsStartsWith_mismatch _ _ s (by decide : mismatchWithin "ollama/".data "openai/".data = true),
      jsStartsWith_mismatch _ _ s (by decide : mismatchWithin "ollama:".data "openai/".data = true),
      jsStartsWith_mismatch _ _ s (by decide : mismatchWithin "lmstudio/".data "openai/".data = true),
      jsStartsWith_mismatch _ _ s (by decide : mismatchWithin "lmstudio:".data "openai/".data = true),
      jsStartsWith_mismatch _ _ s (by decide : mismatchWithin "mlstudio/".data "openai/".data = true),
      jsStartsWith_mismatch _ _ s (by decide : mismatchWithin "mlstudio:".data "openai/".data = true),
      jsStartsWith_mismatch _ _ s (by decide : mismatchWithin "vllm/".data "openai/".data = true),
      jsStartsWith_mismatch _ _ s (by decide : mismatchWithin "vllm:".data "openai/".data = true),
      jsStartsWith_mismatch _ _ s (by decide : mismatchWithin "mlx/".data "openai/".data = true),
      jsStartsWith_mismatch _ _ s (by decide : mismatchWithin "mlx:".data "openai/".data = true),
      jsStartsWith_mismatch _ _ s (by decide : mismatchWithin "http://".data "openai/".data = true),
      jsStartsWith_mismatch _ _ s (by decide : mismatchWithin "https://".data "openai/".data = true)]
    simp [jsIncludesSlash, String.data_append]

/-! ## C10 — pruning is one-shot per handler. -/

/-- C10: once the handler's `pruningEnabled` flag is set, a later request
never prunes: the message list passes through unchanged and the flag stays
set, regardless of context usage. -/
theorem c10_pruning_one_shot (sessionTotal cw : Nat) (msgs : List Prune.PMsg) :
    Prune.handlePruneStep true sessionTotal cw msgs = (msgs, true) := by
  simp [Prune.handlePruneStep]

/-! ## C7 — token tracking. -/

/-- C7 counterexample: the direct-OpenAI (cloud) tracker does not
accumulate input tokens across requests — after reports (10, 5) and
(20, 7) the session input counter is the latest value 20, not 30. -/
theorem c7_counterexample_cloud_input_replaced :
    (Tokens.openaiUpdateTokenTracking ⟨0, 0⟩ 1000
      (Tokens.openaiUpdateTokenTracking ⟨0, 0⟩ 1000 ⟨0, 0, 0⟩ 10 5).1 20 7).1.sessionInputTokens = 20 ∧
    ¬ ((Tokens.openaiUpdateTokenTracking ⟨0, 0⟩ 1000
      (Tokens.openaiUpdateTokenTracking ⟨0, 0⟩ 1000 ⟨0, 0, 0⟩ 10 5).1 20 7).1.sessionInputTokens = 10 + 20) := by
  constructor <;> decide

/-- C7 amended: the local tracker replaces its running input with the
latest positive report and accumulates outputs, as claimed; the cloud
(direct OpenAI) tracker likewise replaces the input with the latest report
and accumulates only outputs (and cost), rather than accumulating both. -/
theorem c7_token_tracking_amended :
    (∀ (cw : Nat) (st : Tokens.LocalTokenState) (us : List (Nat × Nat)) (u : Nat × Nat),
      (Tokens.localFold cw st (us ++ [u])).sessionInputTokens =
        if 0 < u.1 then u.1 else (Tokens.localFold cw st us).sessionInputTokens) ∧
    (∀ (cw : Nat) (st : Tokens.LocalTokenState) (us : List (Nat × Nat)),
      (Tokens.localFold cw st us).sessionOutputTokens =
        st.sessionOutputTokens + (us.map (·.2)).sum) ∧
    (∀ (p : Tokens.ModelPricing) (cw : Nat) (st : Tokens.CloudTokenState)
        (us : List (Nat × Nat)) (u : Nat × Nat),
      (Tokens.cloudFold p cw st (us ++ [u])).sessionInputTokens = u.1) ∧
    (∀ (p : Tokens.ModelPricing) (cw : Nat) (st : Tokens.CloudTokenState)
        (us : List (Nat × Nat)),
      (Tokens.cloudFold p cw st us).sessionOutputTokens =
        st.sessionOutputTokens + (us.map (·.2)).sum) := by
  refine ⟨?_, ?_, ?_, ?_⟩
  · intro cw st us u
    simp [Tokens.localFold, List.foldl_append, Tokens.localWriteTokenFile]
  · intro cw st us
    induction us generalizing st with
    | nil => simp [Tokens.localFold]
    | cons u us ih =>
        simp [Tokens.localFold, List.foldl_cons] at *
        rw [ih]
        simp [Tokens.localWriteTokenFile]
        omega
  · intro p cw st us u
    simp [Tokens.cloudFold, List.foldl_append, Tokens.openaiUpdateTokenTracking]
  · intro p cw st us
    induction us generalizing st with
    | nil => simp [Tokens.cloudFold]
    | cons u us ih =>
        simp [Tokens.cloudFold, List.foldl_cons] at *
        rw [ih]
        simp [Tokens.openaiUpdateTokenTracking]
        omega

/-! ## C4 — pruning invariants. -/

theorem mem_insertSorted {x y : Nat} {l : List Nat} :
    x ∈ Prune.insertSorted y l ↔ x = y ∨ x ∈ l := by
  induction l with
  | nil => simp [Prune.insertSorted]
  | cons z zs ih =>
      by_cases h1 : y < z
      · simp [Prune.insertSorted, h1]
      · by_cases h2 : y = z
        · subst h2
          simp [Prune.insertSorted, h1]
        · simp [Prune.insertSorted, h1, h2, ih]
          tauto

theorem mem_sortDedup_aux {x : Nat} (l : List Nat) :
    ∀ acc : List Nat,
      (x ∈ l.foldl (fun a z => Prune.insertSorted z a) acc ↔ x ∈ acc ∨ x ∈ l) := by
  induction l with
  | nil => intro acc; simp
  | cons z zs ih =>
      intro acc
      simp only [List.foldl_cons]
      rw [ih (Prune.insertSorted z acc), mem_insertSorted]
      simp
      tauto

theorem mem_sortDedup {x : Nat} {l : List Nat} : x ∈ Prune.sortDedup l ↔ x ∈ l := by
  rw [Prune.sortDedup, mem_sortDedup_aux]
  simp

theorem role_of_mem_resultsAfter {messages : List Prune.PMsg} {ids : List String}
    {v mEnd j : Nat} (h : j ∈ Prune.resultsAfter messages ids v mEnd) :
    ∃ mj, messages[j]? = some mj ∧ mj.role = "tool" := by
  rw [Prune.resultsAfter, List.mem_filter] at h
  obtain ⟨-, h2⟩ := h
  rw [Prune.resultMatchAt] at h2
  cases hj : messages[j]? with
  | none => rw [hj] at h2; simp at h2
  | some mj =>
      rw [hj] at h2
      refine ⟨mj, rfl, ?_⟩
      simp [Prune.toolMatches] at h2
      exact h2.1

theorem mem_resultsAfter_intro {messages : List Prune.PMsg} {ids : List String}
    {v mEnd j : Nat} {mj : Prune.PMsg} (hvj : v < j) (hjend : j < mEnd)
    (hmj : messages[j]? = some mj) (hmatch : Prune.toolMatches ids mj = true) :
    j ∈ Prune.resultsAfter messages ids v mEnd := by
  rw [Prune.resultsAfter, List.mem_filter]
  constructor
  · rw [List.mem_range'_1]
    omega
  · rw [Prune.resultMatchAt, hmj]
    exact hmatch

theorem sampled_assistant_is_pick {messages : List Prune.PMsg} {v : Nat}
    {m : Prune.PMsg} (hv : v ∈ Prune.sampledPairs messages)
    (hm : messages[v]? = some m) (hrole : m.role = "assistant") :
    v ∈ Prune.stridePicks messages := by
  rw [Prune.sampledPairs, List.mem_flatMap] at hv
  obtain ⟨w, hw, hvw⟩ := hv
  rw [Prune.sampleContribution] at hvw
  rcases List.mem_cons.mp hvw with h | h
  · exact h ▸ hw
  · exfalso
    cases hgw : messages[w]? with
    | none => rw [hgw] at h; simp at h
    | some mw =>
        rw [hgw] at h
        by_cases hc : (mw.role == "assistant" && mw.tool_calls.isSome) = true
        · simp only [hc, if_true] at h
          obtain ⟨mj, hmj, hrj⟩ := role_of_mem_resultsAfter h
          rw [hm] at hmj
          cases hmj
          rw [hrole] at hrj
          simp at hrj
        · simp only [hc, if_false] at h
          simp at h

/-- C4 counterexample: on a 26-message conversation with tool pairs at
(3,4), (7,8) and (11,12) in the middle section, the every-third sampling
over the flattened pair-index list lands on the tool result at index 8,
which is retained while its issuing assistant message at index 7 is
dropped — refuting part (d) of the claim. -/
theorem c4_counterexample_orphan_tool_result :
    (Prune.cexConversation[7]?).map (·.role) = some "assistant" ∧
    (Prune.cexConversation[7]?).bind (·.tool_calls) = some ["t7"] ∧
    (Prune.cexConversation[8]?).map (·.role) = some "tool" ∧
    (Prune.cexConversation[8]?).bind (·.tool_call_id) = some "t7" ∧
    Prune.middleStartIdx Prune.cexConversation ≤ 7 ∧
    8 < Prune.recentStartIdx Prune.cexConversation ∧
    8 ∈ Prune.preservedIndices Prune.cexConversation ∧
    7 ∉ Prune.preservedIndices Prune.cexConversation ∧
    ({ role := "tool", tool_call_id := some "t7" } : Prune.PMsg) ∈
      (Prune.pruneConversationHistory Prune.cexConversation).1 ∧
    ({ role := "assistant", tool_calls := some ["t7"] } : Prune.PMsg) ∉
      (Prune.pruneConversationHistory Prune.cexConversation).1 := by
  decide

/-- C4 amended: for every message list longer than 5, (a) a leading system
message is retained and the first user message, when at a positive index,
is retained; (b) the last 12 messages are retained; (c) every sampled
assistant message's paired tool results in the middle section are retained;
and every preserved index survives into the pruned output.  Part (d) of the
claim — no tool result retained without its assistant parent — does not
hold (see the counterexample): the stride-3 sampling walks the flattened
list of pair indices, so it can select a tool result without its assistant. -/
theorem c4_pruning_invariants_amended (messages : List Prune.PMsg)
    (h5 : 5 < messages.length) :
    (Prune.role0IsSystem messages = true → 0 ∈ Prune.preservedIndices messages) ∧
    (∀ k, Prune.findFirstUserIdx messages = some k → 0 < k →
       k ∈ Prune.preservedIndices messages) ∧
    (∀ i, i < messages.length → messages.length - 12 ≤ i →
       i ∈ Prune.preservedIndices messages) ∧
    (∀ v m ids, v ∈ Prune.sampledPairs messages →
       messages[v]? = some m → m.role = "assistant" → m.tool_calls = some ids →
       ∀ j mj, v < j → j < Prune.recentStartIdx messages →
         messages[j]? = some mj → Prune.toolMatches ids mj = true →
         j ∈ Prune.preservedIndices messages) ∧
    (∀ i m, i ∈ Prune.preservedIndices messages → messages[i]? = some m →
       m ∈ (Prune.pruneConversationHistory messages).1) := by
  refine ⟨?_, ?_, ?_, ?_, ?_⟩
  · intro h
    simp [Prune.preservedIndices, h]
  · intro k hk hk0
    simp [Prune.preservedIndices, hk, hk0]
  · intro i h1 h2
    simp only [Prune.preservedIndices, List.mem_append]
    refine Or.inr ?_
    rw [List.mem_range'_1]
    unfold Prune.recentStartIdx
    omega
  · intro v m ids hv hm hrole hids j mj hvj hjend hmj hmatch
    have hpick := sampled_assistant_is_pick hv hm hrole
    have hjs : j ∈ Prune.sampledPairs messages := by
      rw [Prune.sampledPairs, List.mem_flatMap]
      refine ⟨v, hpick, ?_⟩
      rw [Prune.sampleContribution, hm]
      have hc : (m.role == "assistant" && m.tool_calls.isSome) = true := by
        simp [hrole, hids]
      simp only [hc, if_true]
      refine List.mem_cons.mpr (Or.inr ?_)
      have : m.tool_calls.getD [] = ids := by rw [hids]; rfl
      rw [this]
      exact mem_resultsAfter_intro hvj hjend hmj hmatch
    simp only [Prune.preservedIndices, List.mem_append]
    tauto
  · intro i m hi hm
    have hlen : i < messages.length := by
      by_contra hcon
      push_neg at hcon
      rw [List.getElem?_eq_none hcon] at hm
      cases hm
    rw [Prune.pruneConversationHistory]
    rw [if_neg (by omega)]
    rw [Prune.prunedList]
    rw [List.mem_filterMap]
    refine ⟨i, ?_, hm⟩
    rw [List.mem_filter]
    constructor
    · simp [hlen]
    · simp [hi]

/-! ## C5 — Gemini tool-call id round-trip. -/

theorem foldl_append_eq_flatMap {α β : Type} (f : α → List β) (l : List α) :
    ∀ acc : List β, l.foldl (fun a b => a ++ f b) acc = acc ++ l.flatMap f := by
  induction l with
  | nil => intro acc; simp
  | cons b bs ih => intro acc; simp [List.foldl_cons, ih]

theorem mapGet_mapSet (m : GeminiM.ToolCallMap) (k v q : String) :
    GeminiM.mapGet (GeminiM.mapSet m k v) q =
      if q = k then some v else GeminiM.mapGet m q := by
  induction m with
  | nil =>
      by_cases h : q = k
      · subst h; simp [GeminiM.mapSet, GeminiM.mapGet, List.find?]
      · have h1 : (k == q) = false := by
          simp; intro hh; exact h hh.symm
        simp [GeminiM.mapSet, GeminiM.mapGet, List.find?, h1, h]
  | cons p rest ih =>
      obtain ⟨pk, pv⟩ := p
      by_cases hpk : pk = k
      · subst hpk
        simp only [GeminiM.mapSet, beq_self_eq_true, if_true]
        by_cases hq : q = pk
        · have h1 : (pk == q) = true := by simp [hq]
          simp [GeminiM.mapGet, List.find?, h1, hq]
        · have h1 : (pk == q) = false := by
            simp; intro hh; exact hq hh.symm
          simp [GeminiM.mapGet, List.find?, h1, hq]
      · have hpkb : (pk == k) = false := by simp [hpk]
        simp only [GeminiM.mapSet, hpkb, if_false]
        by_cases hq : q = pk
        · have h1 : (pk == q) = true := by simp [hq]
          have h2 : ¬ (q = k) := fun hh => hpk (hq ▸ hh)
          simp [GeminiM.mapGet, List.find?, h1, h2]
        · have h1 : (pk == q) = false := by
            simp; intro hh; exact hq hh.symm
          simp only [GeminiM.mapGet, List.find?, h1, cond_false] at ih ⊢
          exact ih

theorem mapGet_assistantFold (tid : String) (bs : List GeminiM.CBlock) :
    ∀ acc : List GeminiM.GPart × GeminiM.ToolCallMap,
      GeminiM.mapGet ((bs.foldl (fun (acc : List GeminiM.GPart × GeminiM.ToolCallMap) b =>
        match b with
        | .text s => (acc.1 ++ [.textPart s], acc.2)
        | .toolUse tid' nm input =>
            (acc.1 ++ [.functionCall nm input], GeminiM.mapSet acc.2 tid' nm)
        | _ => acc) acc).2) tid =
      (match GeminiM.blocksLastBinding tid bs with
       | some nm => some nm
       | none => GeminiM.mapGet acc.2 tid) := by
  induction bs with
  | nil => intro acc; simp [GeminiM.blocksLastBinding]
  | cons b bs ih =>
      intro acc
      rw [List.foldl_cons, ih]
      cases hbs : GeminiM.blocksLastBinding tid bs with
      | some nm => simp [GeminiM.blocksLastBinding, hbs]
      | none =>
          cases b with
          | text s => simp [GeminiM.blocksLastBinding, hbs]
          | image mt d => simp [GeminiM.blocksLastBinding, hbs]
          | toolResult a c => simp [GeminiM.blocksLastBinding, hbs]
          | toolUse tid' nm input =>
              simp only [GeminiM.blocksLastBinding, hbs]
              rw [mapGet_mapSet]
              by_cases h : tid' = tid
              · have h1 : (tid' == tid) = true := by simp [h]
                simp [h, h1]
              · have h1 : (tid' == tid) = false := by simp [h]
                have h2 : ¬ (tid = tid') := fun hh => h hh.symm
                simp [h1, h2]

theorem mapGet_stepMap (m : GeminiM.ToolCallMap) (msg : GeminiM.CMsg) (tid : String) :
    GeminiM.mapGet (GeminiM.stepMap m msg) tid =
      (match GeminiM.lastBindingMsg msg tid with
       | some nm => some nm
       | none => GeminiM.mapGet m tid) := by
  rw [GeminiM.stepMap, GeminiM.lastBindingMsg]
  by_cases hu : (msg.role == "user") = true
  · have ha : (msg.role == "assistant") = false := by
      simp at hu ⊢; rw [hu]; decide
    simp [hu, ha]
  · by_cases ha : (msg.role == "assistant") = true
    · simp only [hu, if_false, ha, if_true]
      cases hc : msg.content with
      | str s => simp [GeminiM.convertAssistantMessageParts, hc]
      | blocks bs =>
          simp only [GeminiM.convertAssistantMessageParts, hc]
          exact mapGet_assistantFold tid bs ([], m)
    · simp [hu, ha]

theorem convert_snd_eq_foldl_stepMap (msgs : List GeminiM.CMsg) :
    ∀ (gs : List GeminiM.GMsg) (m : GeminiM.ToolCallMap),
      (msgs.foldl (fun (acc : List GeminiM.GMsg × GeminiM.ToolCallMap) msg =>
        if msg.role == "user" then
          let parts := GeminiM.convertUserMessageParts acc.2 msg
          (if 0 < parts.length then acc.1 ++ [⟨"user", parts⟩] else acc.1, acc.2)
        else if msg.role == "assistant" then
          let r := GeminiM.convertAssistantMessageParts acc.2 msg
          (if 0 < r.1.length then acc.1 ++ [⟨"model", r.1⟩] else acc.1, r.2)
        else acc) (gs, m)).2 = msgs.foldl GeminiM.stepMap m := by
  induction msgs with
  | nil => intro gs m; simp
  | cons msg msgs ih =>
      intro gs m
      rw [List.foldl_cons, List.foldl_cons]
      by_cases hu : (msg.role == "user") = true
      · simp only [hu, if_true]
        rw [ih]
        congr 1
        simp [GeminiM.stepMap, hu]
      · by_cases ha : (msg.role == "assistant") = true
        · simp only [hu, if_false, ha, if_true]
          rw [ih]
          congr 1
          simp [GeminiM.stepMap, hu, ha]
        · simp only [hu, if_false, ha]
          rw [ih]
          congr 1
          simp [GeminiM.stepMap, hu, ha]

theorem mapGet_mapAfter (m0 : GeminiM.ToolCallMap) (msgs : List GeminiM.CMsg)
    (tid : String) :
    GeminiM.mapGet (GeminiM.mapAfter m0 msgs) tid =
      (match GeminiM.lastBinding tid msgs with
       | some nm => some nm
       | none => GeminiM.mapGet m0 tid) := by
  rw [GeminiM.mapAfter, GeminiM.convertToGeminiMessages, convert_snd_eq_foldl_stepMap]
  induction msgs generalizing m0 with
  | nil => simp [GeminiM.lastBinding]
  | cons msg msgs ih =>
      rw [List.foldl_cons, ih (GeminiM.stepMap m0 msg)]
      rw [mapGet_stepMap]
      cases hrest : GeminiM.lastBinding tid msgs with
      | some nm => simp [GeminiM.lastBinding, hrest]
      | none =>
          cases hmsg : GeminiM.lastBindingMsg msg tid with
          | some nm => simp [GeminiM.lastBinding, hrest, hmsg]
          | none => simp [GeminiM.lastBinding, hrest, hmsg]

/-- C5: if the last tool-use binding for id `tid` before the user turn
named the function `nm`, then converting a tool-result block referencing
`tid` in that user turn yields a `functionResponse` part named `nm`; if the
handler's map has no entry for `tid` (no earlier binding and none carried
in from the initial map), the block is dropped and produces no part. -/
theorem c5_gemini_tool_result_roundtrip (m0 : GeminiM.ToolCallMap)
    (msgs : List GeminiM.CMsg) (j : Nat) (um : GeminiM.CMsg)
    (bs : List GeminiM.CBlock) (tid nm c : String)
    (hum : msgs[j]? = some um) (hrole : um.role = "user")
    (hcontent : um.content = .blocks bs)
    (hblock : GeminiM.CBlock.toolResult tid c ∈ bs) :
    (GeminiM.lastBinding tid (msgs.take j) = some nm →
       GeminiM.GPart.functionResponse nm c ∈
         GeminiM.convertUserMessageParts (GeminiM.mapAfter m0 (msgs.take j)) um) ∧
    (GeminiM.lastBinding tid (msgs.take j) = none →
       GeminiM.mapGet m0 tid = none →
       GeminiM.userBlockParts (GeminiM.mapAfter m0 (msgs.take j))
         (GeminiM.CBlock.toolResult tid c) = []) := by
  have _ := hum
  have _ := hrole
  constructor
  · intro hlast
    have hget : GeminiM.mapGet (GeminiM.mapAfter m0 (msgs.take j)) tid = some nm := by
      rw [mapGet_mapAfter, hlast]
    simp only [GeminiM.convertUserMessageParts, hcontent]
    rw [foldl_append_eq_flatMap]
    simp only [List.nil_append, List.mem_flatMap]
    refine ⟨GeminiM.CBlock.toolResult tid c, hblock, ?_⟩
    rw [GeminiM.userBlockParts, hget]
    simp
  · intro hlast hm0
    have hget : GeminiM.mapGet (GeminiM.mapAfter m0 (msgs.take j)) tid = none := by
      rw [mapGet_mapAfter, hlast, hm0]
    rw [GeminiM.userBlockParts, hget]

/-- C5 witness: the round-trip theorem applied to the concrete two-turn
conversation where the assistant calls `Read` as `toolu_1`. -/
theorem c5_gemini_tool_result_roundtrip_witness :
    GeminiM.exRoundtripMsgs[1]? = some GeminiM.exRoundtripUser ∧
    GeminiM.lastBinding "toolu_1" (GeminiM.exRoundtripMsgs.take 1) = some "Read" ∧
    ((GeminiM.lastBinding "toolu_1" (GeminiM.exRoundtripMsgs.take 1) = some "Read" →
       GeminiM.GPart.functionResponse "Read" "contents" ∈
         GeminiM.convertUserMessageParts
           (GeminiM.mapAfter [] (GeminiM.exRoundtripMsgs.take 1))
           GeminiM.exRoundtripUser) ∧
     (GeminiM.lastBinding "toolu_1" (GeminiM.exRoundtripMsgs.take 1) = none →
       GeminiM.mapGet [] "toolu_1" = none →
       GeminiM.userBlockParts (GeminiM.mapAfter [] (GeminiM.exRoundtripMsgs.take 1))
         (GeminiM.CBlock.toolResult "toolu_1" "contents") = [])) :=
  ⟨rfl, rfl,
   c5_gemini_tool_result_roundtrip [] GeminiM.exRoundtripMsgs 1
     GeminiM.exRoundtripUser [.toolResult "toolu_1" "contents"]
     "toolu_1" "Read" "contents" rfl rfl rfl (List.Mem.head _)⟩

/-! ## Machine-level helper lemmas (state preservation, event shapes). -/

namespace ORM

theorem processRDetail_finalized (st : MState) (d : RDetail) :
    (processRDetail st d).1.finalized = st.finalized := by
  unfold processRDetail
  dsimp only
  repeat' split
  all_goals rfl

theorem processContent_finalized (adapter : Adapter) (st : MState) (txt : String) :
    (processContent adapter st txt).1.finalized = st.finalized := by
  unfold processContent
  dsimp only
  repeat' split
  all_goals rfl

theorem processToolName_finalized (st : MState) (tc : ToolCallDelta) :
    (processToolName st tc).1.finalized = st.finalized := by
  unfold processToolName
  dsimp only
  repeat' split
  all_goals rfl

theorem processToolCallDelta_finalized (st : MState) (tc : ToolCallDelta) :
    (processToolCallDelta st tc).1.finalized = st.finalized := by
  unfold processToolCallDelta
  dsimp only
  have h := processToolName_finalized st tc
  repeat' split
  all_goals simpa using h

theorem processRDetails_finalized (ds : List RDetail) :
    ∀ acc : MState × List Evt,
      ((ds.foldl (fun acc d =>
        let p := processRDetail acc.1 d
        (p.1, acc.2 ++ p.2)) acc).1).finalized = acc.1.finalized := by
  induction ds with
  | nil => intro acc; rfl
  | cons d ds ih =>
      intro acc
      rw [List.foldl_cons, ih]
      exact processRDetail_finalized acc.1 d

theorem finishStep_finalized (validate : Validator) (schemas : List ToolSchema)
    (acc : MState × List Evt) (entry : Nat × ToolSt) :
    ((finishStep validate schemas acc entry).1).finalized = acc.1.finalized := by
  unfold finishStep
  dsimp only
  repeat' split
  all_goals rfl

theorem processFinish_finalized_aux (validate : Validator) (schemas : List ToolSchema)
    (entries : List (Nat × ToolSt)) :
    ∀ acc : MState × List Evt,
      ((entries.foldl (finishStep validate schemas) acc).1).finalized = acc.1.finalized := by
  induction entries with
  | nil => intro acc; rfl
  | cons e es ih =>
      intro acc
      rw [List.foldl_cons, ih]
      exact finishStep_finalized validate schemas acc e

theorem processChunk_finalized (adapter : Adapter) (validate : Validator)
    (schemas : List ToolSchema) (st : MState) (c : ORChunk) :
    (processChunk adapter validate schemas st c).1.finalized = st.finalized := by
  unfold processChunk processFinish processRDetails processToolCalls
  dsimp only
  have key : ∀ (tcs : List ToolCallDelta) (acc : MState × List Evt),
      ((tcs.foldl (fun acc tc =>
        let p := processToolCallDelta acc.1 tc
        (p.1, acc.2 ++ p.2)) acc).1).finalized = acc.1.finalized := by
    intro tcs
    induction tcs with
    | nil => intro acc; rfl
    | cons tc tcs ih =>
        intro acc
        rw [List.foldl_cons, ih]
        exact processToolCallDelta_finalized acc.1 tc
  split
  · split
    · cases c.usage <;> rw [processFinish_finalized_aux]
    · rw [processFinish_finalized_aux, key, processContent_finalized,
        processRDetails_finalized]
      cases c.usage <;> rfl
  · split
    · cases c.usage <;> rfl
    · rw [key, processContent_finalized, processRDetails_finalized]
      cases c.usage <;> rfl

end ORM

theorem mem_snd_ite_singleton {α : Type} {c : Prop} [inst : Decidable c]
    {s1 s2 : α} {ev e : Evt}
    (h : e ∈ (if c then (s1, [ev]) else (s2, ([] : List Evt))).2) : e = ev := by
  split at h
  · simpa using h
  · simp at h

theorem mem_ite_stop {c : Prop} [inst : Decidable c] {i : Nat} {e : Evt}
    (h : e ∈ (if c then [Evt.blockStop i] else ([] : List Evt))) :
    e = Evt.blockStop i := by
  split at h
  · simpa using h
  · simp at h

theorem or_closeTools_no_msgDelta (entries : List (Nat × ORM.ToolSt)) :
    ∀ p : ORM.MState × List Evt, (∀ e ∈ p.2, Evt.isMessageDelta e = false) →
      ∀ e ∈ (entries.foldl ORM.closeTools p).2, Evt.isMessageDelta e = false := by
  induction entries with
  | nil => intro p hp; exact hp
  | cons entry es ih =>
      intro p hp
      rw [List.foldl_cons]
      apply ih
      unfold ORM.closeTools
      dsimp only
      split
      · intro e he
        rcases List.mem_append.mp he with h | h
        · exact hp e h
        · simp at h
          subst h
          rfl
      · exact hp

theorem shared_closeTools_no_msgDelta (entries : List (Nat × SharedM.ToolSt)) :
    ∀ p : SharedM.MState × List Evt, (∀ e ∈ p.2, Evt.isMessageDelta e = false) →
      ∀ e ∈ (entries.foldl SharedM.closeTools p).2, Evt.isMessageDelta e = false := by
  induction entries with
  | nil => intro p hp; exact hp
  | cons entry es ih =>
      intro p hp
      rw [List.foldl_cons]
      apply ih
      unfold SharedM.closeTools
      dsimp only
      split
      · intro e he
        rcases List.mem_append.mp he with h | h
        · exact hp e h
        · simp at h
          subst h
          rfl
      · exact hp

theorem gem_closeTools_no_msgDelta (entries : List (Nat × GeminiM.ToolSt)) :
    ∀ p : GeminiM.MState × List Evt, (∀ e ∈ p.2, Evt.isMessageDelta e = false) →
      ∀ e ∈ (entries.foldl GeminiM.closeTools p).2, Evt.isMessageDelta e = false := by
  induction entries with
  | nil => intro p hp; exact hp
  | cons entry es ih =>
      intro p hp
      rw [List.foldl_cons]
      apply ih
      unfold GeminiM.closeTools
      dsimp only
      split
      · intro e he
        rcases List.mem_append.mp he with h | h
        · exact hp e h
        · simp at h
          subst h
          rfl
      · exact hp

theorem shared_emitExtracted_no_msgDelta (tcs : List (String × Json)) :
    ∀ p : SharedM.MState × List Evt, (∀ e ∈ p.2, Evt.isMessageDelta e = false) →
      ∀ e ∈ (tcs.foldl SharedM.emitExtracted p).2, Evt.isMessageDelta e = false := by
  induction tcs with
  | nil => intro p hp; exact hp
  | cons tc tcs ih =>
      intro p hp
      rw [List.foldl_cons]
      apply ih
      unfold SharedM.emitExtracted
      dsimp only
      intro e he
      rcases List.mem_append.mp he with h | h
      · exact hp e h
      · simp at h
        rcases h with h | h | h <;> subst h <;> rfl

theorem setAssoc_keys {α : Type} (l : List (Nat × α)) (k : Nat) (v : α)
    (h : k ∈ l.map (·.1)) : (setAssoc l k v).map (·.1) = l.map (·.1) := by
  induction l with
  | nil => simp at h
  | cons p rest ih =>
      by_cases hk : p.1 = k
      · simp [setAssoc, hk]
      · have : k ∈ rest.map (·.1) := by
          simp at h
          rcases h with h | h
          · exact absurd h.symm hk
          · simpa using h
        simp [setAssoc, hk, ih this]

theorem gem_closeTools_keys (entries : List (Nat × GeminiM.ToolSt)) :
    ∀ p : GeminiM.MState × List Evt,
      (∀ e ∈ entries, e.1 ∈ p.1.tools.map (·.1)) →
      ((entries.foldl GeminiM.closeTools p).1).tools.map (·.1) = p.1.tools.map (·.1) := by
  induction entries with
  | nil => intro p _; rfl
  | cons entry es ih =>
      intro p hp
      rw [List.foldl_cons]
      have hkeys : ((GeminiM.closeTools p entry).1).tools.map (·.1) = p.1.tools.map (·.1) := by
        unfold GeminiM.closeTools
        dsimp only
        split
        · exact setAssoc_keys _ _ _ (hp entry (List.mem_cons_self _ _))
        · rfl
      rw [ih _ ?_, hkeys]
      intro e he
      rw [hkeys]
      exact hp e (List.mem_cons_of_mem _ he)

theorem shared_emitExtracted_preserves (tcs : List (String × Json)) :
    ∀ p : SharedM.MState × List Evt,
      ((tcs.foldl SharedM.emitExtracted p).1.usage = p.1.usage ∧
       (tcs.foldl SharedM.emitExtracted p).1.accumulatedText = p.1.accumulatedText ∧
       (tcs.foldl SharedM.emitExtracted p).1.reasoningStarted = p.1.reasoningStarted ∧
       (tcs.foldl SharedM.emitExtracted p).1.tools = p.1.tools) := by
  induction tcs with
  | nil => intro p; exact ⟨rfl, rfl, rfl, rfl⟩
  | cons tc tcs ih =>
      intro p
      rw [List.foldl_cons]
      have := ih (SharedM.emitExtracted p tc)
      simpa [SharedM.emitExtracted] using this

theorem shared_closeTools_preserves (entries : List (Nat × SharedM.ToolSt)) :
    ∀ p : SharedM.MState × List Evt,
      ((entries.foldl SharedM.closeTools p).1.usage = p.1.usage ∧
       (entries.foldl SharedM.closeTools p).1.accumulatedText = p.1.accumulatedText) := by
  induction entries with
  | nil => intro p; exact ⟨rfl, rfl⟩
  | cons entry es ih =>
      intro p
      rw [List.foldl_cons]
      have := ih (SharedM.closeTools p entry)
      have hstep : (SharedM.closeTools p entry).1.usage = p.1.usage ∧
          (SharedM.closeTools p entry).1.accumulatedText = p.1.accumulatedText := by
        unfold SharedM.closeTools
        dsimp only
        split <;> exact ⟨rfl, rfl⟩
      exact ⟨this.1.trans hstep.1, this.2.trans hstep.2⟩

theorem or_closeTools_usage (entries : List (Nat × ORM.ToolSt)) :
    ∀ p : ORM.MState × List Evt,
      (entries.foldl ORM.closeTools p).1.usage = p.1.usage := by
  induction entries with
  | nil => intro p; rfl
  | cons entry es ih =>
      intro p
      rw [List.foldl_cons]
      have := ih (ORM.closeTools p entry)
      have hstep : (ORM.closeTools p entry).1.usage = p.1.usage := by
        unfold ORM.closeTools
        dsimp only
        split <;> rfl
      exact this.trans hstep

theorem orFinalize_guard (st : ORM.MState) (e : Bool) (m : String)
    (h : st.finalized = true) : ORM.finalize st e m = (st, [], [], false) := by
  unfold ORM.finalize
  simp [h]

theorem orFinalize_count (st : ORM.MState) (e : Bool) (m : String)
    (h : st.finalized = false) :
    (ORM.finalize st e m).2.2.2 = true ∧ (ORM.finalize st e m).2.2.1.length ≤ 1 := by
  have gen : ∀ o : Option Usage,
      (match o with
       | some u => [(u.prompt_tokens, u.completion_tokens)]
       | none => ([] : List (Nat × Nat))).length ≤ 1 := by
    intro o; cases o <;> simp
  unfold ORM.finalize
  rw [h]
  dsimp only
  exact ⟨rfl, gen _⟩

theorem runFrom_once (adapter : Adapter) (validate : Validator)
    (schemas : List ToolSchema) (inputs : List StreamLine) :
    ∀ st : ORM.MState, st.finalized = false →
      (ORM.runFrom adapter validate schemas st inputs).2.2 = 1 ∧
      (ORM.runFrom adapter validate schemas st inputs).2.1.length ≤ 1 := by
  induction inputs with
  | nil =>
      intro st h
      have hc := orFinalize_count st false "" h
      unfold ORM.runFrom
      constructor
      · simp [hc.1]
      · exact hc.2
  | cons line rest ih =>
      intro st h
      cases line with
      | chunk c =>
          have hp : (ORM.processChunk adapter validate schemas st c).1.finalized = false := by
            rw [ORM.processChunk_finalized, h]
          have := ih _ hp
          unfold ORM.runFrom
          exact this
      | doneMark =>
          have hc := orFinalize_count st false "" h
          unfold ORM.runFrom
          exact ⟨by simp [hc.1], hc.2⟩
      | malformed =>
          have := ih st h
          unfold ORM.runFrom
          exact this
      | readErr =>
          have hc := orFinalize_count st true "read error" h
          unfold ORM.runFrom
          exact ⟨by simp [hc.1], hc.2⟩

theorem orFinalize_stop_reason (st : ORM.MState) (h : st.finalized = false) :
    Evt.messageDelta "end_turn"
        (((ORM.finalize st false "").1.usage.map (·.completion_tokens)).getD 0) ∈
      (ORM.finalize st false "").2.1 ∧
    (∀ sr n, Evt.messageDelta sr n ∈ (ORM.finalize st false "").2.1 →
       sr = "end_turn") := by
  unfold ORM.finalize
  rw [h]
  dsimp only
  constructor
  · simp [List.mem_append]
  · intro sr n hmem
    simp only [Bool.false_eq_true, if_false, List.append_assoc, List.mem_append,
      List.mem_cons, List.mem_singleton, List.not_mem_nil, or_false] at hmem
    rcases hmem with hm | hm | hm | hm | hm
    · exact absurd (mem_snd_ite_singleton hm) (by simp)
    · exact absurd (mem_snd_ite_singleton hm) (by simp)
    · exfalso
      have := or_closeTools_no_msgDelta _ _ (by intro e he; simp at he) _ hm
      simp [Evt.isMessageDelta] at this
    · simp only [Evt.messageDelta.injEq] at hm
      rcases hm with ⟨h1, -⟩ | hm
      · exact h1
      · exact absurd hm (by simp)
    · exact absurd hm (by simp)

theorem sharedFinalize_stop_reason (extract : String → List (String × Json))
    (st : SharedM.MState) (h : st.finalized = false) :
    Evt.messageDelta
        (if 0 < (extract st.accumulatedText).length then "tool_use" else "end_turn")
        (((SharedM.finalize extract st false "").1.usage.map (·.completion_tokens)).getD 0) ∈
      (SharedM.finalize extract st false "").2.1 ∧
    (∀ sr n, Evt.messageDelta sr n ∈ (SharedM.finalize extract st false "").2.1 →
       sr = (if 0 < (extract st.accumulatedText).length then "tool_use" else "end_turn")) := by
  unfold SharedM.finalize
  rw [h]
  dsimp only
  constructor
  · simp [List.mem_append]
  · intro sr n hmem
    simp only [Bool.false_eq_true, if_false, List.append_assoc, List.mem_append,
      List.mem_cons, List.mem_singleton, List.not_mem_nil, or_false] at hmem
    rcases hmem with hm | hm | hm | hm | hm | hm
    · exfalso
      revert hm
      split
      · intro hm
        have := shared_emitExtracted_no_msgDelta _ _ (fun e he => by
          have := mem_snd_ite_singleton he
          subst this
          rfl) _ hm
        simp [Evt.isMessageDelta] at this
      · intro hm
        simp at hm
    · exact absurd (mem_ite_stop hm) (by simp)
    · exact absurd (mem_ite_stop hm) (by simp)
    · exfalso
      have := shared_closeTools_no_msgDelta _ _ (by intro e he; simp at he) _ hm
      simp [Evt.isMessageDelta] at this
    · simp only [Evt.messageDelta.injEq] at hm
      rcases hm with ⟨h1, -⟩ | hm
      · exact h1
      · exact absurd hm (by simp)
    · exact absurd hm (by simp)

theorem geminiFinalize_stop_reason (st : GeminiM.MState) (h : st.finalized = false) :
    Evt.messageDelta
        (if 0 < st.tools.length then "tool_use" else "end_turn")
        (((GeminiM.finalize st false "").1.usage.map (·.candidatesTokenCount)).getD 0) ∈
      (GeminiM.finalize st false "").2.1 ∧
    (∀ sr n, Evt.messageDelta sr n ∈ (GeminiM.finalize st false "").2.1 →
       sr = (if 0 < st.tools.length then "tool_use" else "end_turn")) := by
  have hkeys := gem_closeTools_keys
    ({ st with finalized := true } : GeminiM.MState).tools
    (({ st with finalized := true } : GeminiM.MState), ([] : List Evt))
    (fun e he => List.mem_map_of_mem _ he)
  have hlen : ((({ st with finalized := true } : GeminiM.MState).tools.foldl
      GeminiM.closeTools
      (({ st with finalized := true } : GeminiM.MState), ([] : List Evt))).1).tools.length =
      st.tools.length := by
    have := congrArg List.length hkeys
    simpa using this
  unfold GeminiM.finalize
  rw [h]
  dsimp only
  rw [hlen]
  constructor
  · simp [List.mem_append]
  · intro sr n hmem
    simp only [Bool.false_eq_true, if_false, List.append_assoc, List.mem_append,
      List.mem_cons, List.mem_singleton, List.not_mem_nil, or_false] at hmem
    rcases hmem with hm | hm | hm | hm | hm
    · exact absurd (mem_ite_stop hm) (by simp)
    · exact absurd (mem_ite_stop hm) (by simp)
    · exfalso
      have := gem_closeTools_no_msgDelta _ _ (by intro e he; simp at he) _ hm
      simp [Evt.isMessageDelta] at this
    · simp only [Evt.messageDelta.injEq] at hm
      rcases hm with ⟨h1, -⟩ | hm
      · exact h1
      · exact absurd hm (by simp)
    · exact absurd hm (by simp)

theorem orFinalize_writes (st : ORM.MState) (e : Bool) (m : String)
    (h : st.finalized = false) :
    (ORM.finalize st e m).2.2.1 =
      (match st.usage with
       | some u => [(u.prompt_tokens, u.completion_tokens)]
       | none => []) := by
  unfold ORM.finalize
  rw [if_neg (by simp [h])]
  dsimp only
  rw [or_closeTools_usage]
  dsimp only
  cases hu : st.usage <;> cases hts : st.thinkingStarted <;>
    cases hxs : st.textStarted <;> simp [hu, hts, hxs]

theorem shared_emitExtracted_usage (tcs : List (String × Json))
    (p : SharedM.MState × List Evt) :
    (tcs.foldl SharedM.emitExtracted p).1.usage = p.1.usage :=
  (shared_emitExtracted_preserves tcs p).1

theorem shared_emitExtracted_accText (tcs : List (String × Json))
    (p : SharedM.MState × List Evt) :
    (tcs.foldl SharedM.emitExtracted p).1.accumulatedText = p.1.accumulatedText :=
  (shared_emitExtracted_preserves tcs p).2.1

theorem shared_closeTools_usage (entries : List (Nat × SharedM.ToolSt))
    (p : SharedM.MState × List Evt) :
    (entries.foldl SharedM.closeTools p).1.usage = p.1.usage :=
  (shared_closeTools_preserves entries p).1

theorem shared_closeTools_accText (entries : List (Nat × SharedM.ToolSt))
    (p : SharedM.MState × List Evt) :
    (entries.foldl SharedM.closeTools p).1.accumulatedText = p.1.accumulatedText :=
  (shared_closeTools_preserves entries p).2

theorem sharedFinalize_writes (extract : String → List (String × Json))
    (st : SharedM.MState) (e : Bool) (m : String) (h : st.finalized = false) :
    (SharedM.finalize extract st e m).2.2.1 =
      (match st.usage with
       | some u => [(u.prompt_tokens, u.completion_tokens)]
       | none => [(100, (st.accumulatedText.length + 3) / 4)]) := by
  unfold SharedM.finalize
  rw [if_neg (by simp [h])]
  dsimp only
  rw [shared_closeTools_usage, shared_closeTools_accText]
  dsimp only
  by_cases hc : 0 < (extract st.accumulatedText).length <;>
    cases hts : st.textStarted <;> cases hu : st.usage <;>
    simp [hc, hts, hu, shared_emitExtracted_usage, shared_emitExtracted_accText]

/-! ## C6 — finalize idempotence. -/

/-- C6: `finalize` is guarded: once `finalized` is set, a later invocation
is a no-op (no events, no token update) in both the OpenRouter and the
shared machines; over any whole OpenRouter stream — including one ending in
a read error / client disconnect — the finalize body runs exactly once and
the token callback fires at most once. -/
theorem c6_finalize_idempotent :
    (∀ (st : ORM.MState) (e : Bool) (m : String), st.finalized = true →
       ORM.finalize st e m = (st, [], [], false)) ∧
    (∀ (extract : String → List (String × Json)) (st : SharedM.MState)
       (e : Bool) (m : String), st.finalized = true →
       SharedM.finalize extract st e m = (st, [], [], false)) ∧
    (∀ (adapter : Adapter) (validate : Validator) (schemas : List ToolSchema)
       (inputs : List StreamLine),
       (ORM.run adapter validate schemas inputs).2.2 = 1 ∧
       (ORM.run adapter validate schemas inputs).2.1.length ≤ 1) ∧
    (∀ (adapter : Adapter) (validate : Validator) (schemas : List ToolSchema)
       (pre : List StreamLine),
       (ORM.run adapter validate schemas (pre ++ [StreamLine.readErr])).2.2 = 1) := by
  refine ⟨?_, ?_, ?_, ?_⟩
  · exact orFinalize_guard
  · intro extract st e m h
    unfold SharedM.finalize
    simp [h]
  · intro adapter validate schemas inputs
    have := runFrom_once adapter validate schemas inputs ORM.initState rfl
    exact ⟨this.1, this.2⟩
  · intro adapter validate schemas pre
    exact (runFrom_once adapter validate schemas (pre ++ [StreamLine.readErr])
      ORM.initState rfl).1

/-- C6 witness: the idempotence theorem applied to already-finalized
states and to the concrete example streams. -/
theorem c6_finalize_idempotent_witness :
    ORM.finalize { finalized := true } false "" = ({ finalized := true }, [], [], false) ∧
    SharedM.finalize (fun _ => []) { finalized := true } false "" =
      ({ finalized := true }, [], [], false) ∧
    (ORM.run defaultAdapter anyValidator [] exTextStream).2.2 = 1 ∧
    (ORM.run defaultAdapter anyValidator [] ([] ++ [StreamLine.readErr])).2.2 = 1 :=
  ⟨c6_finalize_idempotent.1 { finalized := true } false "" rfl,
   c6_finalize_idempotent.2.1 (fun _ => []) { finalized := true } false "" rfl,
   (c6_finalize_idempotent.2.2.1 defaultAdapter anyValidator [] exTextStream).1,
   c6_finalize_idempotent.2.2.2 defaultAdapter anyValidator [] []⟩

/-! ## C2 — stop reason at finalisation. -/

/-- C2 counterexample: a stream through the OpenRouter machine that emits a
structured tool-use content block nevertheless finalises with
`message_delta` stop reason `end_turn`, not `tool_use`. -/
theorem c2_counterexample_or_tool_use_end_turn :
    Evt.blockStartTool 0 "call_1" "Bash" ∈
      (ORM.run defaultAdapter anyValidator [] exToolStream).1 ∧
    ((ORM.run defaultAdapter anyValidator [] exToolStream).1.filter
      Evt.isMessageDelta) = [Evt.messageDelta "end_turn" 0] := by
  decide

/-- C2 amended: on normal finalisation the Gemini machine emits stop reason
`tool_use` exactly when any tool block was emitted, as claimed; but the
OpenRouter machine always emits `end_turn`, and the shared OpenAI-compatible
machine emits `tool_use` only when the finalize-time text extractor found
tool calls (structured tool blocks still yield `end_turn`). -/
theorem c2_stop_reason_amended :
    (∀ st : ORM.MState, st.finalized = false →
       Evt.messageDelta "end_turn"
           (((ORM.finalize st false "").1.usage.map (·.completion_tokens)).getD 0) ∈
         (ORM.finalize st false "").2.1 ∧
       (∀ sr n, Evt.messageDelta sr n ∈ (ORM.finalize st false "").2.1 →
          sr = "end_turn")) ∧
    (∀ (extract : String → List (String × Json)) (st : SharedM.MState),
       st.finalized = false →
       Evt.messageDelta
           (if 0 < (extract st.accumulatedText).length then "tool_use" else "end_turn")
           (((SharedM.finalize extract st false "").1.usage.map (·.completion_tokens)).getD 0) ∈
         (SharedM.finalize extract st false "").2.1 ∧
       (∀ sr n, Evt.messageDelta sr n ∈ (SharedM.finalize extract st false "").2.1 →
          sr = (if 0 < (extract st.accumulatedText).length then "tool_use" else "end_turn"))) ∧
    (∀ st : GeminiM.MState, st.finalized = false →
       Evt.messageDelta
           (if 0 < st.tools.length then "tool_use" else "end_turn")
           (((GeminiM.finalize st false "").1.usage.map (·.candidatesTokenCount)).getD 0) ∈
         (GeminiM.finalize st false "").2.1 ∧
       (∀ sr n, Evt.messageDelta sr n ∈ (GeminiM.finalize st false "").2.1 →
          sr = (if 0 < st.tools.length then "tool_use" else "end_turn"))) :=
  ⟨orFinalize_stop_reason, sharedFinalize_stop_reason, geminiFinalize_stop_reason⟩

/-- C2 witness: the amended stop-reason theorem applied to fresh stream
states (no tool blocks, empty extractor). -/
theorem c2_stop_reason_amended_witness :
    (Evt.messageDelta "end_turn"
         (((ORM.finalize {} false "").1.usage.map (·.completion_tokens)).getD 0) ∈
       (ORM.finalize {} false "").2.1 ∧
     (∀ sr n, Evt.messageDelta sr n ∈ (ORM.finalize {} false "").2.1 →
        sr = "end_turn")) ∧
    (Evt.messageDelta
         (if 0 < ((fun _ => ([] : List (String × Json)))
             (SharedM.MState.accumulatedText {})).length then "tool_use" else "end_turn")
         (((SharedM.finalize (fun _ => []) {} false "").1.usage.map (·.completion_tokens)).getD 0) ∈
       (SharedM.finalize (fun _ => []) {} false "").2.1 ∧
     (∀ sr n, Evt.messageDelta sr n ∈ (SharedM.finalize (fun _ => []) {} false "").2.1 →
        sr = (if 0 < ((fun _ => ([] : List (String × Json)))
             (SharedM.MState.accumulatedText {})).length then "tool_use" else "end_turn"))) ∧
    (Evt.messageDelta
         (if 0 < (GeminiM.MState.tools {}).length then "tool_use" else "end_turn")
         (((GeminiM.finalize {} false "").1.usage.map (·.candidatesTokenCount)).getD 0) ∈
       (GeminiM.finalize {} false "").2.1 ∧
     (∀ sr n, Evt.messageDelta sr n ∈ (GeminiM.finalize {} false "").2.1 →
        sr = (if 0 < (GeminiM.MState.tools {}).length then "tool_use" else "end_turn"))) :=
  ⟨c2_stop_reason_amended.1 {} rfl,
   c2_stop_reason_amended.2.1 (fun _ => []) {} rfl,
   c2_stop_reason_amended.2.2 {} rfl⟩

/-! ## C8 — token accounting at finalisation. -/

/-- C8 counterexample: an OpenRouter stream that received text but no usage
data performs no token write at all — in particular it does not write the
estimated `(100, ceil(len/4))` the claim requires of every handler. -/
theorem c8_counterexample_or_no_estimate :
    Evt.blockDelta 0 (DeltaKind.textDelta "hello") ∈
      (ORM.run defaultAdapter anyValidator [] exTextStream).1 ∧
    (ORM.run defaultAdapter anyValidator [] exTextStream).2.1 = [] ∧
    (ORM.run defaultAdapter anyValidator [] exTextStream).2.1 ≠ [(100, 2)] := by
  decide

/-- C8 amended: the shared OpenAI-compatible machine uses the upstream
usage when present and otherwise estimates the output as
`ceil(len(accumulatedText)/4)` with a placeholder input of 100; the
OpenRouter machine writes token data only when usage was received and
performs no estimate. -/
theorem c8_token_accounting_amended :
    (∀ (extract : String → List (String × Json)) (st : SharedM.MState)
       (e : Bool) (m : String), st.finalized = false →
       (SharedM.finalize extract st e m).2.2.1 =
         (match st.usage with
          | some u => [(u.prompt_tokens, u.completion_tokens)]
          | none => [(100, (st.accumulatedText.length + 3) / 4)])) ∧
    (∀ (st : ORM.MState) (e : Bool) (m : String), st.finalized = false →
       (ORM.finalize st e m).2.2.1 =
         (match st.usage with
          | some u => [(u.prompt_tokens, u.completion_tokens)]
          | none => [])) :=
  ⟨sharedFinalize_writes, orFinalize_writes⟩

/-- C8 witness: the amended token-accounting theorem applied to a state
with accumulated text and no usage, and to one with usage data. -/
theorem c8_token_accounting_amended_witness :
    (SharedM.finalize (fun _ => []) { accumulatedText := "hello" } false "").2.2.1 =
      [(100, 2)] ∧
    (ORM.finalize ({ usage := some ⟨7, 9⟩ } : ORM.MState) false "").2.2.1 = [(7, 9)] :=
  ⟨by
    have := c8_token_accounting_amended.1 (fun _ => [])
      ({ accumulatedText := "hello" } : SharedM.MState) false "" rfl
    simpa using this,
   by
    have := c8_token_accounting_amended.2
      ({ usage := some ⟨7, 9⟩ } : ORM.MState) false "" rfl
    simpa using this⟩

/-- C4 witness: the amended pruning theorem applied to the concrete
20-message conversation of the spec's scenario S6. -/
theorem c4_pruning_invariants_amended_witness :
    5 < Prune.exConversation.length ∧
    ((Prune.role0IsSystem Prune.exConversation = true →
        0 ∈ Prune.preservedIndices Prune.exConversation) ∧
     (∀ k, Prune.findFirstUserIdx Prune.exConversation = some k → 0 < k →
        k ∈ Prune.preservedIndices Prune.exConversation) ∧
     (∀ i, i < Prune.exConversation.length → Prune.exConversation.length - 12 ≤ i →
        i ∈ Prune.preservedIndices Prune.exConversation) ∧
     (∀ v m ids, v ∈ Prune.sampledPairs Prune.exConversation →
        Prune.exConversation[v]? = some m → m.role = "assistant" →
        m.tool_calls = some ids →
        ∀ j mj, v < j → j < Prune.recentStartIdx Prune.exConversation →
          Prune.exConversation[j]? = some mj → Prune.toolMatches ids mj = true →
          j ∈ Prune.preservedIndices Prune.exConversation) ∧
     (∀ i m, i ∈ Prune.preservedIndices Prune.exConversation →
        Prune.exConversation[i]? = some m →
        m ∈ (Prune.pruneConversationHistory Prune.exConversation).1)) :=
  ⟨by decide, c4_pruning_invariants_amended Prune.exConversation (by decide)⟩

/-! ## C3 — tool-call validation and repair (spec-modelled module). -/

/-- Setting a key with JS Map semantics makes it retrievable. -/
theorem getAssoc_setAssoc {α : Type} (l : List (Nat × α)) (i : Nat) (v : α) :
    getAssoc (setAssoc l i v) i = some v := by
  induction l with
  | nil => simp [setAssoc, getAssoc]
  | cons p rest ih =>
      by_cases h : p.1 = i
      · simp [setAssoc, getAssoc, h, List.find?]
      · simp only [setAssoc, h, if_false]
        simpa [getAssoc, List.find?, h] using ih

/-- The failed-tool-call error text decomposes around the claimed
substring when the missing set is just the parameter b. -/
theorem errorMsgText_decomp (name : String) :
    SharedM.errorMsgText name ["b"] =
      ("\n\n⚠️ Tool call \"" ++ name ++ "\" failed: ") ++
      ("missing required parameters: b" ++
       ". Local models sometimes generate incomplete tool calls. Please try again or use a model with better tool support.") := by
  unfold SharedM.errorMsgText
  simp only [String.append_assoc]
  congr 2

/-- C3 (spec-modelled validator): when the finish reason is tool_calls,
schemas are provided, the tool requires the parameters a and b and its
accumulated arguments parse to an object holding only a, processing the
buffered, not-yet-started tool entry either emits a single complete
repaired tool-use block whose arguments contain both required fields, or
emits only a text block whose content contains the string "missing
required parameters: b"; in both cases the tool entry is closed, and no
tool-use block missing a required parameter is forwarded. -/
theorem c3_required_params_repair_or_error
    (parse : String → Option (List (String × Json)))
    (infer : String → String → String → Option String)
    (schemas : List ToolSchema) (st : SharedM.MState) (evs : List Evt)
    (i : Nat) (t : SharedM.ToolSt) (av : Json) (sch : ToolSchema)
    (hfind : schemas.find? (fun s => s.name == t.name) = some sch)
    (hreq : sch.required = ["a", "b"])
    (hparse : parse t.arguments = some [("a", av)])
    (hbuf : t.buffered = true) (hst : t.started = false) (hcl : t.closed = false)
    (hlen : schemas.length ≠ 0) :
    ((∃ args : List (String × Json),
        (SharedM.finishStep (validateAndRepairToolCallSpec parse infer)
            schemas (st, evs) (i, t)).2 =
          evs ++ [Evt.blockStartTool t.blockIndex t.tsId t.name,
                  Evt.blockDelta t.blockIndex
                    (DeltaKind.inputJson (Json.render (Json.obj args))),
                  Evt.blockStop t.blockIndex] ∧
        "a" ∈ jsonKeys args ∧ "b" ∈ jsonKeys args) ∨
     (∃ pre post : String,
        (SharedM.finishStep (validateAndRepairToolCallSpec parse infer)
            schemas (st, evs) (i, t)).2 =
          evs ++ [Evt.blockStartText t.blockIndex,
                  Evt.blockDelta t.blockIndex
                    (DeltaKind.textDelta (pre ++ ("missing required parameters: b" ++ post))),
                  Evt.blockStop t.blockIndex])) ∧
    (∃ t' : SharedM.ToolSt,
        getAssoc (SharedM.finishStep (validateAndRepairToolCallSpec parse infer)
            schemas (st, evs) (i, t)).1.tools i = some t' ∧
        t'.closed = true) := by
  have hval : validateAndRepairToolCallSpec parse infer t.name t.arguments schemas
      st.accumulatedText =
      (match infer t.name "b" st.accumulatedText with
       | some v =>
           if v ≠ "" then
             { valid := true, missingParams := [], repaired := true,
               parsedArgs := [("a", av), ("b", Json.str v)] }
           else
             { valid := false, missingParams := ["b"],
               parsedArgs := [("a", av)], repaired := false }
       | none =>
           { valid := false, missingParams := ["b"],
             parsedArgs := [("a", av)], repaired := false }) := by
    unfold validateAndRepairToolCallSpec
    rw [hparse, hfind]
    dsimp only
    rw [hreq]
    cases hinf : infer t.name "b" st.accumulatedText with
    | none => simp [jsonKeys, hinf]
    | some v =>
        by_cases hv : v = ""
        · subst hv; simp [jsonKeys, hinf]
        · simp [jsonKeys, hinf, hv, Option.getD]
  unfold SharedM.finishStep
  dsimp only
  rw [if_neg (by simp [hcl]), if_neg hlen, hval]
  cases hinf : infer t.name "b" st.accumulatedText with
  | none =>
      refine ⟨Or.inr ⟨"\n\n⚠️ Tool call \"" ++ t.name ++ "\" failed: ",
        ". Local models sometimes generate incomplete tool calls. Please try again or use a model with better tool support.", ?_⟩,
        ⟨{ t with closed := true }, ?_, rfl⟩⟩
      · rw [← errorMsgText_decomp]
        simp [hbuf, hst]
      · simp [hbuf, hst, getAssoc_setAssoc]
  | some v =>
      by_cases hv : v = ""
      · subst hv
        refine ⟨Or.inr ⟨"\n\n⚠️ Tool call \"" ++ t.name ++ "\" failed: ",
          ". Local models sometimes generate incomplete tool calls. Please try again or use a model with better tool support.", ?_⟩,
          ⟨{ t with closed := true }, ?_, rfl⟩⟩
        · rw [← errorMsgText_decomp]
          simp [hbuf, hst]
        · simp [hbuf, hst, getAssoc_setAssoc]
      · refine ⟨Or.inl ⟨[("a", av), ("b", Json.str v)], ?_, by simp [jsonKeys]⟩,
          ⟨{ t with started := true, closed := true }, ?_, rfl⟩⟩
        · simp [hbuf, hst, hv]
        · simp [hbuf, hst, hv, getAssoc_setAssoc]


/-- C3 witness: the repair-or-error theorem applied to the concrete broken
Bash call (arguments holding only a) with the always-succeeding inference
oracle. -/
theorem c3_required_params_repair_or_error_witness :
    ([exSchemaBash].find? (fun s => s.name == exBrokenTool.name) = some exSchemaBash) ∧
    (exSchemaBash.required = ["a", "b"]) ∧
    (exParseArgs exBrokenTool.arguments = some [("a", Json.num 1)]) ∧
    (exBrokenTool.buffered = true) ∧ (exBrokenTool.started = false) ∧
    (exBrokenTool.closed = false) ∧ ([exSchemaBash].length ≠ 0) ∧
    (((∃ args : List (String × Json),
        (SharedM.finishStep (validateAndRepairToolCallSpec exParseArgs exInferOk)
            [exSchemaBash] ({}, []) (0, exBrokenTool)).2 =
          [] ++ [Evt.blockStartTool exBrokenTool.blockIndex exBrokenTool.tsId exBrokenTool.name,
                  Evt.blockDelta exBrokenTool.blockIndex
                    (DeltaKind.inputJson (Json.render (Json.obj args))),
                  Evt.blockStop exBrokenTool.blockIndex] ∧
        "a" ∈ jsonKeys args ∧ "b" ∈ jsonKeys args) ∨
     (∃ pre post : String,
        (SharedM.finishStep (validateAndRepairToolCallSpec exParseArgs exInferOk)
            [exSchemaBash] ({}, []) (0, exBrokenTool)).2 =
          [] ++ [Evt.blockStartText exBrokenTool.blockIndex,
                  Evt.blockDelta exBrokenTool.blockIndex
                    (DeltaKind.textDelta (pre ++ ("missing required parameters: b" ++ post))),
                  Evt.blockStop exBrokenTool.blockIndex])) ∧
    (∃ t : SharedM.ToolSt,
        getAssoc (SharedM.finishStep (validateAndRepairToolCallSpec exParseArgs exInferOk)
            [exSchemaBash] ({}, []) (0, exBrokenTool)).1.tools 0 = some t ∧
        t.closed = true)) :=
  ⟨rfl, rfl, rfl, rfl, rfl, rfl, by simp,
   c3_required_params_repair_or_error exParseArgs exInferOk [exSchemaBash]
     {} [] 0 exBrokenTool (Json.num 1) exSchemaBash rfl rfl rfl rfl rfl rfl (by simp)⟩

/-! ## OpenRouter machine: stop-matching invariant machinery. -/

theorem getAssoc_mem {α : Type} {l : List (Nat × α)} {k : Nat} {v : α}
    (h : getAssoc l k = some v) : (k, v) ∈ l := by
  unfold getAssoc at h
  cases hf : l.find? (fun p => p.1 = k) with
  | none => rw [hf] at h; simp at h
  | some p =>
      rw [hf] at h
      simp only [Option.map_some', Option.some.injEq] at h
      have hp := List.mem_of_find?_eq_some hf
      have hk := List.find?_some hf
      obtain ⟨a, b⟩ := p
      subst h
      have hk' : a = k := of_decide_eq_true hk
      subst hk'
      exact hp

theorem getAssoc_some_key {α : Type} {l : List (Nat × α)} {k : Nat} {v : α}
    (h : getAssoc l k = some v) : k ∈ l.map (·.1) :=
  List.mem_map_of_mem _ (getAssoc_mem h)

theorem getAssoc_none_key {α : Type} {l : List (Nat × α)} {k : Nat}
    (h : getAssoc l k = none) : k ∉ l.map (·.1) := by
  unfold getAssoc at h
  cases hf : l.find? (fun p => p.1 = k) with
  | some p => rw [hf] at h; simp at h
  | none =>
      intro hmem
      obtain ⟨e, he, hk⟩ := List.mem_map.mp hmem
      have := List.find?_eq_none.mp hf e he
      simp [hk] at this

theorem mem_setAssoc_nodup {α : Type} {l : List (Nat × α)} {k : Nat} {v : α}
    {e : Nat × α} (hnd : (l.map (·.1)).Nodup) (h : e ∈ setAssoc l k v) :
    e = (k, v) ∨ (e ∈ l ∧ e.1 ≠ k) := by
  induction l with
  | nil => simpa [setAssoc] using h
  | cons p rest ih =>
      simp only [List.map_cons, List.nodup_cons] at hnd
      unfold setAssoc at h
      split at h
      · rename_i hk
        rcases List.mem_cons.mp h with h | h
        · left; rw [h, hk]
        · right
          refine ⟨List.mem_cons_of_mem _ h, ?_⟩
          intro hek
          exact hnd.1 (by rw [hk, ← hek]; exact List.mem_map_of_mem _ h)
      · rename_i hk
        rcases List.mem_cons.mp h with h | h
        · right
          subst h
          exact ⟨List.mem_cons_self _ _, hk⟩
        · rcases ih hnd.2 h with h | h
          · left; exact h
          · right; exact ⟨List.mem_cons_of_mem _ h.1, h.2⟩

theorem setAssoc_keys_fresh {α : Type} (l : List (Nat × α)) (k : Nat) (v : α)
    (h : k ∉ l.map (·.1)) : (setAssoc l k v).map (·.1) = l.map (·.1) ++ [k] := by
  induction l with
  | nil => simp [setAssoc]
  | cons p rest ih =>
      simp only [List.map_cons, List.mem_cons] at h
      push_neg at h
      have hpk : ¬ p.1 = k := fun hh => h.1 hh.symm
      simp [setAssoc, hpk, ih h.2]

theorem keys_nodup_unique {α : Type} {l : List (Nat × α)} {k : Nat} {a b : α}
    (hnd : (l.map (·.1)).Nodup) (ha : (k, a) ∈ l) (hb : (k, b) ∈ l) : a = b := by
  induction l with
  | nil => simp at ha
  | cons p rest ih =>
      obtain ⟨pk, pv⟩ := p
      simp only [List.map_cons, List.nodup_cons] at hnd
      rcases List.mem_cons.mp ha with ha | ha <;>
        rcases List.mem_cons.mp hb with hb | hb
      · exact congrArg Prod.snd (ha.trans hb.symm)
      · injection ha with h1 h2
        exact absurd (h1 ▸ List.mem_map_of_mem (·.1) hb) hnd.1
      · injection hb with h1 h2
        exact absurd (h1 ▸ List.mem_map_of_mem (·.1) ha) hnd.1
      · exact ih hnd.2 ha hb

theorem mem_setAssoc_of_ne {α : Type} {l : List (Nat × α)} {k : Nat} {v : α}
    {e : Nat × α} (he : e ∈ l) (hne : e.1 ≠ k) : e ∈ setAssoc l k v := by
  induction l with
  | nil => simp at he
  | cons p rest ih =>
      unfold setAssoc
      split
      · rename_i hpk
        rcases List.mem_cons.mp he with he | he
        · exact absurd (he ▸ hpk) hne
        · exact List.mem_cons_of_mem _ he
      · rcases List.mem_cons.mp he with he | he
        · rw [he]; exact List.mem_cons_self _ _
        · exact List.mem_cons_of_mem _ (ih he)

theorem stepOpen_stop_mem {l : List Nat} {i : Nat} (h : i ∈ l) :
    stepOpen (some l) (Evt.blockStop i) = some (l.erase i) := by
  simp [stepOpen, h]

theorem foldOpen_delta_ite (x : Option (List Nat)) (c : Prop) [inst : Decidable c]
    (i : Nat) (k : DeltaKind) :
    List.foldl stepOpen x (if c then [] else [Evt.blockDelta i k]) = x := by
  split
  · rfl
  · cases x <;> rfl

theorem accum_fold_inv {X : Type} (g : ORM.MState → X → ORM.MState × List Evt)
    (Hg : ∀ (st : ORM.MState) (x : X) (l : List Nat), InvOpen st l → ∃ l',
      List.foldl stepOpen (some l) (g st x).2 = some l' ∧ InvOpen (g st x).1 l')
    (xs : List X) :
    ∀ (acc : ORM.MState × List Evt) (l0 l : List Nat),
      List.foldl stepOpen (some l0) acc.2 = some l → InvOpen acc.1 l →
      ∃ l', List.foldl stepOpen (some l0)
          ((xs.foldl (fun a x =>
            let p := g a.1 x
            (p.1, a.2 ++ p.2)) acc).2) = some l' ∧
        InvOpen ((xs.foldl (fun a x =>
            let p := g a.1 x
            (p.1, a.2 ++ p.2)) acc).1) l' := by
  induction xs with
  | nil => intro acc l0 l h1 h2; exact ⟨l, h1, h2⟩
  | cons x xs ih =>
      intro acc l0 l h1 h2
      rw [List.foldl_cons]
      obtain ⟨l2, hf, hi⟩ := Hg acc.1 x l h2
      refine ih _ l0 l2 ?_ hi
      dsimp only
      rw [List.foldl_append, h1, hf]

theorem processRDetail_inv (st : ORM.MState) (d : RDetail) (l : List Nat)
    (h : InvOpen st l) :
    ∃ l', List.foldl stepOpen (some l) (ORM.processRDetail st d).2 = some l' ∧
      InvOpen (ORM.processRDetail st d).1 l' := by
  unfold ORM.processRDetail
  dsimp only
  split
  · split
    · exact ⟨l, rfl, h⟩
    · split
      · exact ⟨l, rfl,
          ⟨h.think, h.text, h.tool, h.allStarted, h.tt, h.toolThink, h.toolText,
           h.toolTool, h.keys⟩⟩
      · refine ⟨st.curIdx :: l, rfl, ?_, ?_, ?_, h.allStarted, ?_, ?_, ?_, h.toolTool, h.keys⟩
        · intro _
          exact ⟨List.mem_cons_self _ _, Nat.lt_succ_self _⟩
        · intro hx
          obtain ⟨m, b⟩ := h.text hx
          exact ⟨List.mem_cons_of_mem _ m, Nat.lt_succ_of_lt b⟩
        · intro e he hc
          obtain ⟨m, b⟩ := h.tool e he hc
          exact ⟨List.mem_cons_of_mem _ m, Nat.lt_succ_of_lt b⟩
        · intro _ hx heq
          dsimp only at heq
          have := (h.text hx).2
          omega
        · intro e he hc _ heq
          dsimp only at heq
          have := (h.tool e he hc).2
          omega
        · intro e he hc hx
          exact h.toolText e he hc hx
  · exact ⟨l, rfl, h⟩

theorem processContent_inv (adapter : Adapter) (st : ORM.MState) (txt : String)
    (l : List Nat) (h : InvOpen st l) :
    ∃ l', List.foldl stepOpen (some l) (ORM.processContent adapter st txt).2 = some l' ∧
      InvOpen (ORM.processContent adapter st txt).1 l' := by
  unfold ORM.processContent
  dsimp only
  split
  · exact ⟨l, rfl, h⟩
  · by_cases hth : st.thinkingStarted = true
    · rw [if_pos hth]
      dsimp only
      by_cases htx : st.textStarted = true
      · rw [if_pos htx]
        dsimp only
        refine ⟨l.erase st.thinkingIdx, ?_, ?_⟩
        · simp [stepOpen_stop_mem (h.think hth).1, foldOpen_delta_ite]
        · refine ⟨?_, ?_, ?_, h.allStarted, ?_, ?_, ?_, h.toolTool, h.keys⟩
          · intro hc; exact absurd hc (by simp)
          · intro _
            obtain ⟨m, b⟩ := h.text htx
            exact ⟨(List.mem_erase_of_ne (Ne.symm (h.tt hth htx))).mpr m, b⟩
          · intro e he hc
            obtain ⟨m, b⟩ := h.tool e he hc
            exact ⟨(List.mem_erase_of_ne (h.toolThink e he hc hth)).mpr m, b⟩
          · intro hc; exact absurd hc (by simp)
          · intro e he hc hcc; exact absurd hcc (by simp)
          · exact fun e he hc _ => h.toolText e he hc htx
      · rw [if_neg htx]
        dsimp only
        refine ⟨st.curIdx :: l.erase st.thinkingIdx, ?_, ?_⟩
        · simp [stepOpen, (h.think hth).1, foldOpen_delta_ite]
        · refine ⟨?_, ?_, ?_, h.allStarted, ?_, ?_, ?_, h.toolTool, h.keys⟩
          · intro hc; exact absurd hc (by simp)
          · intro _
            exact ⟨List.mem_cons_self _ _, Nat.lt_succ_self _⟩
          · intro e he hc
            obtain ⟨m, b⟩ := h.tool e he hc
            exact ⟨List.mem_cons_of_mem _
              ((List.mem_erase_of_ne (h.toolThink e he hc hth)).mpr m),
              Nat.lt_succ_of_lt b⟩
          · intro hc; exact absurd hc (by simp)
          · intro e he hc hcc; exact absurd hcc (by simp)
          · intro e he hc _ heq
            have := (h.tool e he hc).2
            dsimp only at heq this ⊢
            omega
    · rw [if_neg hth]
      dsimp only
      by_cases htx : st.textStarted = true
      · rw [if_pos htx]
        dsimp only
        refine ⟨l, ?_, ?_⟩
        · simp [foldOpen_delta_ite]
        · exact ⟨h.think, h.text, h.tool, h.allStarted, h.tt, h.toolThink,
            h.toolText, h.toolTool, h.keys⟩
      · rw [if_neg htx]
        dsimp only
        refine ⟨st.curIdx :: l, ?_, ?_⟩
        · simp [foldOpen_delta_ite, stepOpen]
        · refine ⟨?_, ?_, ?_, h.allStarted, ?_, ?_, ?_, h.toolTool, h.keys⟩
          · intro hc
            obtain ⟨m, b⟩ := h.think hc
            exact ⟨List.mem_cons_of_mem _ m, Nat.lt_succ_of_lt b⟩
          · intro _
            exact ⟨List.mem_cons_self _ _, Nat.lt_succ_self _⟩
          · intro e he hc
            obtain ⟨m, b⟩ := h.tool e he hc
            exact ⟨List.mem_cons_of_mem _ m, Nat.lt_succ_of_lt b⟩
          · intro hc _
            exact absurd hc hth
          · intro e he hc hcc
            exact h.toolThink e he hc hcc
          · intro e he hc _ heq
            have := (h.tool e he hc).2
            dsimp only at heq this ⊢
            omega

theorem inv_closeThinking {st : ORM.MState} {l : List Nat} (h : InvOpen st l)
    (hth : st.thinkingStarted = true) :
    InvOpen { st with thinkingStarted := false } (l.erase st.thinkingIdx) := by
  refine ⟨?_, ?_, ?_, h.allStarted, ?_, ?_, ?_, h.toolTool, h.keys⟩
  · intro hc; exact absurd hc (by simp)
  · intro hx
    obtain ⟨m, b⟩ := h.text hx
    exact ⟨(List.mem_erase_of_ne (Ne.symm (h.tt hth hx))).mpr m, b⟩
  · intro e he hc
    obtain ⟨m, b⟩ := h.tool e he hc
    exact ⟨(List.mem_erase_of_ne (h.toolThink e he hc hth)).mpr m, b⟩
  · intro hc; exact absurd hc (by simp)
  · intro e he hc hcc; exact absurd hcc (by simp)
  · exact fun e he hc hx => h.toolText e he hc hx

theorem inv_closeText {st : ORM.MState} {l : List Nat} (h : InvOpen st l)
    (htx : st.textStarted = true) :
    InvOpen { st with textStarted := false } (l.erase st.textIdx) := by
  refine ⟨?_, ?_, ?_, h.allStarted, ?_, ?_, ?_, h.toolTool, h.keys⟩
  · intro hc
    obtain ⟨m, b⟩ := h.think hc
    exact ⟨(List.mem_erase_of_ne (h.tt hc htx)).mpr m, b⟩
  · intro hx; exact absurd hx (by simp)
  · intro e he hc
    obtain ⟨m, b⟩ := h.tool e he hc
    exact ⟨(List.mem_erase_of_ne (h.toolText e he hc htx)).mpr m, b⟩
  · intro _ hx; exact absurd hx (by simp)
  · exact fun e he hc hcc => h.toolThink e he hc hcc
  · intro e he hc hx; exact absurd hx (by simp)

theorem inv_openTool {st : ORM.MState} {l : List Nat} (h : InvOpen st l)
    (hth : st.thinkingStarted = false) (htx : st.textStarted = false)
    (k : Nat) (hk : getAssoc st.tools k = none) (t' : ORM.ToolSt)
    (hbi : t'.blockIndex = st.curIdx) (hs : t'.started = true)
    (_hc : t'.closed = false) :
    InvOpen { st with curIdx := st.curIdx + 1, tools := setAssoc st.tools k t' }
      (st.curIdx :: l) := by
  refine ⟨?_, ?_, ?_, ?_, ?_, ?_, ?_, ?_, ?_⟩
  · intro hcc; exact absurd hcc (by simp [hth])
  · intro hcc; exact absurd hcc (by simp [htx])
  · intro e he hec
    rcases mem_setAssoc_nodup h.keys he with he | ⟨he, hne⟩
    · subst he
      exact ⟨by rw [hbi]; exact List.mem_cons_self _ _, by rw [hbi]; exact Nat.lt_succ_self _⟩
    · obtain ⟨m, b⟩ := h.tool e he hec
      exact ⟨List.mem_cons_of_mem _ m, Nat.lt_succ_of_lt b⟩
  · intro e he
    rcases mem_setAssoc_nodup h.keys he with he | ⟨he, hne⟩
    · subst he; exact hs
    · exact h.allStarted e he
  · intro hcc; exact absurd hcc (by simp [hth])
  · intro e he hec hcc; exact absurd hcc (by simp [hth])
  · intro e he hec hcc; exact absurd hcc (by simp [htx])
  · intro e he f hf hkey hec hfc
    rcases mem_setAssoc_nodup h.keys he with he | ⟨he, hne⟩ <;>
      rcases mem_setAssoc_nodup h.keys hf with hf | ⟨hf, hnf⟩
    · subst he; subst hf; exact absurd rfl hkey
    · subst he
      have := (h.tool f hf hfc).2
      rw [hbi]
      omega
    · subst hf
      have := (h.tool e he hec).2
      rw [hbi]
      omega
    · exact h.toolTool e he f hf hkey hec hfc
  · rw [setAssoc_keys_fresh _ _ _ (getAssoc_none_key hk)]
    refine List.Nodup.append h.keys (List.nodup_singleton _) ?_
    intro a ha hb
    simp only [List.mem_singleton] at hb
    subst hb
    exact getAssoc_none_key hk ha

theorem processToolName_inv (st : ORM.MState) (tc : ToolCallDelta) (l : List Nat)
    (h : InvOpen st l) :
    ∃ l', List.foldl stepOpen (some l) (ORM.processToolName st tc).2.1 = some l' ∧
      InvOpen (ORM.processToolName st tc).1 l' ∧
      ∀ t, (ORM.processToolName st tc).2.2 = some t →
        (tc.index, t) ∈ (ORM.processToolName st tc).1.tools := by
  unfold ORM.processToolName
  dsimp only
  cases hfn : tc.fnName with
  | none =>
      refine ⟨l, rfl, h, ?_⟩
      intro t ht
      exact getAssoc_mem ht
  | some nm =>
      cases ht0 : getAssoc st.tools tc.index with
      | some t =>
          dsimp only
          have hstart : t.started = true := h.allStarted _ (getAssoc_mem ht0)
          rw [if_pos hstart]
          refine ⟨l, rfl, h, ?_⟩
          intro t2 ht2
          simp only [Option.some.injEq] at ht2
          subst ht2
          exact getAssoc_mem ht0
      | none =>
          dsimp only
          by_cases hth : st.thinkingStarted = true
          · rw [if_pos hth]
            dsimp only
            by_cases htx : st.textStarted = true
            · rw [if_pos htx]
              dsimp only
              have h1 := inv_closeThinking h hth
              have h2 := inv_closeText h1 htx
              refine ⟨st.curIdx :: (l.erase st.thinkingIdx).erase st.textIdx, ?_, ?_, ?_⟩
              · simp [stepOpen, (h.think hth).1, (h1.text htx).1]
              · exact inv_openTool h2 rfl rfl tc.index ht0 _ rfl rfl rfl
              · intro t ht
                simp only [Option.some.injEq] at ht
                subst ht
                exact getAssoc_mem (getAssoc_setAssoc _ _ _)
            · rw [if_neg htx]
              dsimp only
              have h1 := inv_closeThinking h hth
              refine ⟨st.curIdx :: l.erase st.thinkingIdx, ?_, ?_, ?_⟩
              · simp [stepOpen, (h.think hth).1]
              · exact inv_openTool h1 rfl (by simpa using htx) tc.index ht0 _ rfl rfl rfl
              · intro t ht
                simp only [Option.some.injEq] at ht
                subst ht
                exact getAssoc_mem (getAssoc_setAssoc _ _ _)
          · rw [if_neg hth]
            dsimp only
            by_cases htx : st.textStarted = true
            · rw [if_pos htx]
              dsimp only
              have h1 := inv_closeText h htx
              refine ⟨st.curIdx :: l.erase st.textIdx, ?_, ?_, ?_⟩
              · simp [stepOpen, (h.text htx).1]
              · exact inv_openTool h1 (by simpa using hth) rfl tc.index ht0 _ rfl rfl rfl
              · intro t ht
                simp only [Option.some.injEq] at ht
                subst ht
                exact getAssoc_mem (getAssoc_setAssoc _ _ _)
            · rw [if_neg htx]
              dsimp only
              refine ⟨st.curIdx :: l, ?_, ?_, ?_⟩
              · simp [stepOpen]
              · exact inv_openTool h (by simpa using hth) (by simpa using htx)
                  tc.index ht0 _ rfl rfl rfl
              · intro t ht
                simp only [Option.some.injEq] at ht
                subst ht
                exact getAssoc_mem (getAssoc_setAssoc _ _ _)

theorem processToolCallDelta_inv (st : ORM.MState) (tc : ToolCallDelta)
    (l : List Nat) (h : InvOpen st l) :
    ∃ l', List.foldl stepOpen (some l) (ORM.processToolCallDelta st tc).2 = some l' ∧
      InvOpen (ORM.processToolCallDelta st tc).1 l' := by
  obtain ⟨l1, hf, hi, hmem⟩ := processToolName_inv st tc l h
  unfold ORM.processToolCallDelta
  dsimp only
  cases hargs : tc.fnArgs with
  | none =>
      dsimp only
      cases hnt : (ORM.processToolName st tc).2.2 <;> exact ⟨l1, hf, hi⟩
  | some args =>
      cases hnt : (ORM.processToolName st tc).2.2 with
      | none => exact ⟨l1, hf, hi⟩
      | some t =>
          dsimp only
          have hmem' := hmem t hnt
          refine ⟨l1, ?_, ?_⟩
          · rw [List.foldl_append, hf]
            rfl
          · refine ⟨hi.think, hi.text, ?_, ?_, hi.tt, ?_, ?_, ?_, ?_⟩
            · intro e he hec
              rcases mem_setAssoc_nodup hi.keys he with he | ⟨he, hne⟩
              · subst he
                exact hi.tool (tc.index, t) hmem' hec
              · exact hi.tool e he hec
            · intro e he
              rcases mem_setAssoc_nodup hi.keys he with he | ⟨he, hne⟩
              · subst he
                exact hi.allStarted (tc.index, t) hmem'
              · exact hi.allStarted e he
            · intro e he hec hcc
              rcases mem_setAssoc_nodup hi.keys he with he | ⟨he, hne⟩
              · subst he
                exact hi.toolThink (tc.index, t) hmem' hec hcc
              · exact hi.toolThink e he hec hcc
            · intro e he hec hcc
              rcases mem_setAssoc_nodup hi.keys he with he | ⟨he, hne⟩
              · subst he
                exact hi.toolText (tc.index, t) hmem' hec hcc
              · exact hi.toolText e he hec hcc
            · intro e he f hf2 hkey hec hfc
              rcases mem_setAssoc_nodup hi.keys he with he | ⟨he, hne⟩ <;>
                rcases mem_setAssoc_nodup hi.keys hf2 with hf2 | ⟨hf2, hnf⟩
              · subst he; subst hf2; exact absurd rfl hkey
              · subst he
                exact hi.toolTool (tc.index, t) hmem' f hf2 hkey hec hfc
              · subst hf2
                exact hi.toolTool e he (tc.index, t) hmem' hkey hec hfc
              · exact hi.toolTool e he f hf2 hkey hec hfc
            · rw [setAssoc_keys _ _ _ (List.mem_map_of_mem _ hmem')]
              exact hi.keys

theorem processToolCalls_inv (st : ORM.MState) (tcs : List ToolCallDelta)
    (l : List Nat) (h : InvOpen st l) :
    ∃ l', List.foldl stepOpen (some l) (ORM.processToolCalls st tcs).2 = some l' ∧
      InvOpen (ORM.processToolCalls st tcs).1 l' := by
  unfold ORM.processToolCalls
  exact accum_fold_inv ORM.processToolCallDelta
    (fun st x l hl => processToolCallDelta_inv st x l hl) tcs (st, []) l l rfl h

theorem processRDetails_inv (st : ORM.MState) (ds : List RDetail)
    (l : List Nat) (h : InvOpen st l) :
    ∃ l', List.foldl stepOpen (some l) (ORM.processRDetails st ds).2 = some l' ∧
      InvOpen (ORM.processRDetails st ds).1 l' := by
  unfold ORM.processRDetails
  exact accum_fold_inv ORM.processRDetail
    (fun st x l hl => processRDetail_inv st x l hl) ds (st, []) l l rfl h

theorem closeLike_fold_inv
    (f : ORM.MState × List Evt → Nat × ORM.ToolSt → ORM.MState × List Evt)
    (Hstep : ∀ (acc : ORM.MState × List Evt) (x : Nat × ORM.ToolSt) (l0 l : List Nat),
      List.foldl stepOpen (some l0) acc.2 = some l → InvOpen acc.1 l →
      x ∈ acc.1.tools →
      ∃ l', List.foldl stepOpen (some l0) (f acc x).2 = some l' ∧
        InvOpen (f acc x).1 l' ∧
        ∀ y ∈ acc.1.tools, y.1 ≠ x.1 → y ∈ (f acc x).1.tools)
    (xs : List (Nat × ORM.ToolSt)) :
    ∀ (acc : ORM.MState × List Evt) (l0 l : List Nat),
      List.foldl stepOpen (some l0) acc.2 = some l → InvOpen acc.1 l →
      (∀ x ∈ xs, x ∈ acc.1.tools) → (xs.map (·.1)).Nodup →
      ∃ l', List.foldl stepOpen (some l0) (xs.foldl f acc).2 = some l' ∧
        InvOpen ((xs.foldl f acc).1) l' := by
  induction xs with
  | nil => intro acc l0 l h1 h2 _ _; exact ⟨l, h1, h2⟩
  | cons x xs ih =>
      intro acc l0 l h1 h2 hmem hnd
      rw [List.foldl_cons]
      obtain ⟨l2, hf, hi, hprop⟩ := Hstep acc x l0 l h1 h2 (hmem x (List.mem_cons_self _ _))
      simp only [List.map_cons, List.nodup_cons] at hnd
      refine ih _ l0 l2 hf hi ?_ hnd.2
      intro y hy
      refine hprop y (hmem y (List.mem_cons_of_mem _ hy)) ?_
      intro hkey
      exact hnd.1 (hkey ▸ List.mem_map_of_mem (·.1) hy)

theorem inv_closeEntry {st : ORM.MState} {l : List Nat} (h : InvOpen st l)
    (x : Nat × ORM.ToolSt) (hx : x ∈ st.tools) (hcl : x.2.closed = false) :
    InvOpen { st with tools := setAssoc st.tools x.1 { x.2 with closed := true } }
      (l.erase x.2.blockIndex) := by
  refine ⟨?_, ?_, ?_, ?_, h.tt, ?_, ?_, ?_, ?_⟩
  · intro hth
    obtain ⟨m, b⟩ := h.think hth
    exact ⟨(List.mem_erase_of_ne (Ne.symm (h.toolThink x hx hcl hth))).mpr m, b⟩
  · intro htx
    obtain ⟨m, b⟩ := h.text htx
    exact ⟨(List.mem_erase_of_ne (Ne.symm (h.toolText x hx hcl htx))).mpr m, b⟩
  · intro e he hec
    rcases mem_setAssoc_nodup h.keys he with he | ⟨he, hne⟩
    · subst he
      exact absurd hec (by simp)
    · obtain ⟨m, b⟩ := h.tool e he hec
      exact ⟨(List.mem_erase_of_ne (h.toolTool e he x hx hne hec hcl)).mpr m, b⟩
  · intro e he
    rcases mem_setAssoc_nodup h.keys he with he | ⟨he, hne⟩
    · subst he
      exact h.allStarted x hx
    · exact h.allStarted e he
  · intro e he hec hth
    rcases mem_setAssoc_nodup h.keys he with he | ⟨he, hne⟩
    · subst he
      exact absurd hec (by simp)
    · exact h.toolThink e he hec hth
  · intro e he hec htx
    rcases mem_setAssoc_nodup h.keys he with he | ⟨he, hne⟩
    · subst he
      exact absurd hec (by simp)
    · exact h.toolText e he hec htx
  · intro e he f hf hkey hec hfc
    rcases mem_setAssoc_nodup h.keys he with he | ⟨he, hne⟩ <;>
      rcases mem_setAssoc_nodup h.keys hf with hf | ⟨hf, hnf⟩
    · subst he; exact absurd hec (by simp)
    · subst he; exact absurd hec (by simp)
    · subst hf; exact absurd hfc (by simp)
    · exact h.toolTool e he f hf hkey hec hfc
  · rw [setAssoc_keys _ _ _ (List.mem_map_of_mem _ hx)]
    exact h.keys

theorem finishStep_Hstep (validate : Validator) (schemas : List ToolSchema) :
    ∀ (acc : ORM.MState × List Evt) (x : Nat × ORM.ToolSt) (l0 l : List Nat),
      List.foldl stepOpen (some l0) acc.2 = some l → InvOpen acc.1 l →
      x ∈ acc.1.tools →
      ∃ l', List.foldl stepOpen (some l0)
          (ORM.finishStep validate schemas acc x).2 = some l' ∧
        InvOpen (ORM.finishStep validate schemas acc x).1 l' ∧
        ∀ y ∈ acc.1.tools, y.1 ≠ x.1 →
          y ∈ (ORM.finishStep validate schemas acc x).1.tools := by
  intro acc x l0 l h1 h2 hx
  unfold ORM.finishStep
  dsimp only
  split
  · rename_i hcond
    obtain ⟨hst, hncl⟩ := hcond
    have hcl : x.2.closed = false := by
      cases hcc : x.2.closed
      · rfl
      · exact absurd hcc hncl
    have hstop : List.foldl stepOpen (some l0) (acc.2 ++ [Evt.blockStop x.2.blockIndex]) =
        some (l.erase x.2.blockIndex) := by
      rw [List.foldl_append, h1]
      simp [stepOpen, (h2.tool x hx hcl).1]
    split
    · split
      · -- invalid: error text block, tool closed without stop
        refine ⟨l, ?_, ?_, ?_⟩
        · rw [List.foldl_append, h1]
          simp [stepOpen, List.erase_cons_head]
        · have hbase := h2
          refine ⟨?_, ?_, ?_, ?_, hbase.tt, ?_, ?_, ?_, ?_⟩
          · intro hth
            obtain ⟨m, b⟩ := hbase.think hth
            exact ⟨m, Nat.lt_succ_of_lt b⟩
          · intro htx
            obtain ⟨m, b⟩ := hbase.text htx
            exact ⟨m, Nat.lt_succ_of_lt b⟩
          · intro e he hec
            rcases mem_setAssoc_nodup hbase.keys he with he | ⟨he, hne⟩
            · subst he
              exact absurd hec (by simp)
            · obtain ⟨m, b⟩ := hbase.tool e he hec
              exact ⟨m, Nat.lt_succ_of_lt b⟩
          · intro e he
            rcases mem_setAssoc_nodup hbase.keys he with he | ⟨he, hne⟩
            · subst he
              exact hbase.allStarted x hx
            · exact hbase.allStarted e he
          · intro e he hec hth
            rcases mem_setAssoc_nodup hbase.keys he with he | ⟨he, hne⟩
            · subst he
              exact absurd hec (by simp)
            · exact hbase.toolThink e he hec hth
          · intro e he hec htx
            rcases mem_setAssoc_nodup hbase.keys he with he | ⟨he, hne⟩
            · subst he
              exact absurd hec (by simp)
            · exact hbase.toolText e he hec htx
          · intro e he f hf hkey hec hfc
            rcases mem_setAssoc_nodup hbase.keys he with he | ⟨he, hne⟩ <;>
              rcases mem_setAssoc_nodup hbase.keys hf with hf | ⟨hf, hnf⟩
            · subst he; exact absurd hec (by simp)
            · subst he; exact absurd hec (by simp)
            · subst hf; exact absurd hfc (by simp)
            · exact hbase.toolTool e he f hf hkey hec hfc
          · rw [setAssoc_keys _ _ _ (List.mem_map_of_mem _ hx)]
            exact hbase.keys
        · intro y hy hkey
          exact mem_setAssoc_of_ne hy hkey
      · -- valid: stop the block and close the entry
        refine ⟨l.erase x.2.blockIndex, hstop, inv_closeEntry h2 x hx hcl, ?_⟩
        intro y hy hkey
        exact mem_setAssoc_of_ne hy hkey
    · refine ⟨l.erase x.2.blockIndex, hstop, inv_closeEntry h2 x hx hcl, ?_⟩
      intro y hy hkey
      exact mem_setAssoc_of_ne hy hkey
  · exact ⟨l, h1, h2, fun y hy _ => hy⟩

theorem closeTools_Hstep :
    ∀ (acc : ORM.MState × List Evt) (x : Nat × ORM.ToolSt) (l0 l : List Nat),
      List.foldl stepOpen (some l0) acc.2 = some l → InvOpen acc.1 l →
      x ∈ acc.1.tools →
      ∃ l', List.foldl stepOpen (some l0) (ORM.closeTools acc x).2 = some l' ∧
        InvOpen (ORM.closeTools acc x).1 l' ∧
        ∀ y ∈ acc.1.tools, y.1 ≠ x.1 → y ∈ (ORM.closeTools acc x).1.tools := by
  intro acc x l0 l h1 h2 hx
  unfold ORM.closeTools
  dsimp only
  split
  · rename_i hcond
    obtain ⟨hst, hncl⟩ := hcond
    have hcl : x.2.closed = false := by
      cases hcc : x.2.closed
      · rfl
      · exact absurd hcc hncl
    refine ⟨l.erase x.2.blockIndex, ?_, inv_closeEntry h2 x hx hcl, ?_⟩
    · rw [List.foldl_append, h1]
      simp [stepOpen, (h2.tool x hx hcl).1]
    · intro y hy hkey
      exact mem_setAssoc_of_ne hy hkey
  · exact ⟨l, h1, h2, fun y hy _ => hy⟩

theorem processFinish_inv (validate : Validator) (schemas : List ToolSchema)
    (st : ORM.MState) (l : List Nat) (h : InvOpen st l) :
    ∃ l', List.foldl stepOpen (some l)
        (ORM.processFinish validate schemas st).2 = some l' ∧
      InvOpen (ORM.processFinish validate schemas st).1 l' := by
  unfold ORM.processFinish
  exact closeLike_fold_inv _ (finishStep_Hstep validate schemas) st.tools
    (st, []) l l rfl h (fun x hx => hx) h.keys

theorem processChunk_inv (adapter : Adapter) (validate : Validator)
    (schemas : List ToolSchema) (st : ORM.MState) (c : ORChunk)
    (l : List Nat) (h : InvOpen st l) :
    ∃ l', List.foldl stepOpen (some l)
        (ORM.processChunk adapter validate schemas st c).2 = some l' ∧
      InvOpen (ORM.processChunk adapter validate schemas st c).1 l' := by
  unfold ORM.processChunk
  dsimp only
  cases hu : c.usage with
  | some u =>
      have h0 : InvOpen ({ st with usage := some u } : ORM.MState) l :=
        ⟨h.think, h.text, h.tool, h.allStarted, h.tt, h.toolThink, h.toolText,
         h.toolTool, h.keys⟩
      cases hd : c.delta with
      | none =>
          dsimp only
          split
          · obtain ⟨l2, f2, i2⟩ := processFinish_inv validate schemas _ l h0
            exact ⟨l2, f2, i2⟩
          · exact ⟨l, rfl, h0⟩
      | some d =>
          dsimp only
          obtain ⟨l1, f1, i1⟩ := processRDetails_inv _ d.reasoning_details l h0
          obtain ⟨l2, f2, i2⟩ := processContent_inv adapter _ d.content l1 i1
          obtain ⟨l3, f3, i3⟩ := processToolCalls_inv _ d.tool_calls l2 i2
          split
          · obtain ⟨l4, f4, i4⟩ := processFinish_inv validate schemas _ l3 i3
            refine ⟨l4, ?_, i4⟩
            rw [List.foldl_append, List.foldl_append, List.foldl_append, f1, f2, f3, f4]
          · refine ⟨l3, ?_, i3⟩
            rw [List.foldl_append, List.foldl_append, f1, f2, f3]
  | none =>
      cases hd : c.delta with
      | none =>
          dsimp only
          split
          · obtain ⟨l2, f2, i2⟩ := processFinish_inv validate schemas _ l h
            exact ⟨l2, f2, i2⟩
          · exact ⟨l, rfl, h⟩
      | some d =>
          dsimp only
          obtain ⟨l1, f1, i1⟩ := processRDetails_inv _ d.reasoning_details l h
          obtain ⟨l2, f2, i2⟩ := processContent_inv adapter _ d.content l1 i1
          obtain ⟨l3, f3, i3⟩ := processToolCalls_inv _ d.tool_calls l2 i2
          split
          · obtain ⟨l4, f4, i4⟩ := processFinish_inv validate schemas _ l3 i3
            refine ⟨l4, ?_, i4⟩
            rw [List.foldl_append, List.foldl_append, List.foldl_append, f1, f2, f3, f4]
          · refine ⟨l3, ?_, i3⟩
            rw [List.foldl_append, List.foldl_append, f1, f2, f3]

theorem foldOpen_tail (x : List Nat) (e : Bool) (m : String) (n : Nat) :
    List.foldl stepOpen
      (List.foldl stepOpen (some x)
        (if e = true then [Evt.errorEvt m]
         else [Evt.messageDelta "end_turn" n, Evt.messageStop])) [Evt.doneSentinel] =
      some x := by
  cases e <;> rfl

theorem finalize_inv (st : ORM.MState) (e : Bool) (m : String) (l : List Nat)
    (h : InvOpen st l) :
    ∃ l', List.foldl stepOpen (some l) (ORM.finalize st e m).2.1 = some l' := by
  unfold ORM.finalize
  dsimp only
  split
  · exact ⟨l, rfl⟩
  · have h0 : InvOpen ({ st with finalized := true } : ORM.MState) l :=
      ⟨h.think, h.text, h.tool, h.allStarted, h.tt, h.toolThink, h.toolText,
       h.toolTool, h.keys⟩
    by_cases hth : st.thinkingStarted = true
    · rw [if_pos hth]
      dsimp only
      have h1 := inv_closeThinking h0 hth
      by_cases htx : st.textStarted = true
      · rw [if_pos htx]
        dsimp only
        have h2 := inv_closeText h1 htx
        obtain ⟨l3, f3, i3⟩ := closeLike_fold_inv _ closeTools_Hstep _
          (_, ([] : List Evt)) ((l.erase st.thinkingIdx).erase st.textIdx)
          ((l.erase st.thinkingIdx).erase st.textIdx) rfl h2 (fun x hx => hx) h2.keys
        refine ⟨l3, ?_⟩
        rw [List.foldl_append, List.foldl_append, List.foldl_append, List.foldl_append]
        rw [show List.foldl stepOpen (some l) [Evt.blockStop st.thinkingIdx] =
          some (l.erase st.thinkingIdx) from by simp [stepOpen, (h0.think hth).1]]
        rw [show List.foldl stepOpen (some (l.erase st.thinkingIdx))
            [Evt.blockStop st.textIdx] =
          some ((l.erase st.thinkingIdx).erase st.textIdx) from by
            simp [stepOpen, (h1.text htx).1]]
        rw [f3]
        exact foldOpen_tail l3 e m _
      · rw [if_neg htx]
        dsimp only
        obtain ⟨l3, f3, i3⟩ := closeLike_fold_inv _ closeTools_Hstep _
          (_, ([] : List Evt)) (l.erase st.thinkingIdx) (l.erase st.thinkingIdx)
          rfl h1 (fun x hx => hx) h1.keys
        refine ⟨l3, ?_⟩
        rw [List.foldl_append, List.foldl_append, List.foldl_append, List.foldl_append]
        rw [show List.foldl stepOpen (some l) [Evt.blockStop st.thinkingIdx] =
          some (l.erase st.thinkingIdx) from by simp [stepOpen, (h0.think hth).1]]
        dsimp only [List.foldl_nil]
        rw [f3]
        exact foldOpen_tail l3 e m _
    · rw [if_neg hth]
      dsimp only
      by_cases htx : st.textStarted = true
      · rw [if_pos htx]
        dsimp only
        have h2 := inv_closeText h0 htx
        obtain ⟨l3, f3, i3⟩ := closeLike_fold_inv _ closeTools_Hstep _
          (_, ([] : List Evt)) (l.erase st.textIdx) (l.erase st.textIdx)
          rfl h2 (fun x hx => hx) h2.keys
        refine ⟨l3, ?_⟩
        rw [List.foldl_append, List.foldl_append, List.foldl_append, List.foldl_append]
        dsimp only [List.foldl_nil]
        rw [show List.foldl stepOpen (some l) [Evt.blockStop st.textIdx] =
          some (l.erase st.textIdx) from by simp [stepOpen, (h0.text htx).1]]
        rw [f3]
        exact foldOpen_tail l3 e m _
      · rw [if_neg htx]
        dsimp only
        obtain ⟨l3, f3, i3⟩ := closeLike_fold_inv _ closeTools_Hstep _
          (_, ([] : List Evt)) l l rfl h0 (fun x hx => hx) h0.keys
        refine ⟨l3, ?_⟩
        rw [List.foldl_append, List.foldl_append, List.foldl_append, List.foldl_append]
        dsimp only [List.foldl_nil]
        rw [f3]
        exact foldOpen_tail l3 e m _

theorem runFrom_inv (adapter : Adapter) (validate : Validator)
    (schemas : List ToolSchema) (inputs : List StreamLine) :
    ∀ (st : ORM.MState) (l : List Nat), InvOpen st l →
      ∃ l', List.foldl stepOpen (some l)
        (ORM.runFrom adapter validate schemas st inputs).1 = some l' := by
  induction inputs with
  | nil =>
      intro st l h
      exact finalize_inv st false "" l h
  | cons line rest ih =>
      intro st l h
      cases line with
      | chunk c =>
          obtain ⟨l1, f1, i1⟩ := processChunk_inv adapter validate schemas st c l h
          obtain ⟨l2, f2⟩ := ih _ l1 i1
          refine ⟨l2, ?_⟩
          unfold ORM.runFrom
          dsimp only
          rw [List.foldl_append, f1, f2]
      | doneMark =>
          obtain ⟨l1, f1⟩ := finalize_inv st false "" l h
          exact ⟨l1, f1⟩
      | malformed => exact ih st l h
      | readErr =>
          obtain ⟨l1, f1⟩ := finalize_inv st true "read error" l h
          exact ⟨l1, f1⟩

theorem initState_inv : InvOpen ORM.initState [] := by
  refine ⟨?_, ?_, ?_, ?_, ?_, ?_, ?_, ?_, ?_⟩ <;>
    simp [ORM.initState]

theorem run_stopsMatch (adapter : Adapter) (validate : Validator)
    (schemas : List ToolSchema) (inputs : List StreamLine) :
    stopsMatchOpen (ORM.run adapter validate schemas inputs).1 = true := by
  unfold stopsMatchOpen openBlocks ORM.run
  dsimp only
  obtain ⟨l', hl⟩ := runFrom_inv adapter validate schemas inputs ORM.initState [] initState_inv
  rw [List.foldl_cons, List.foldl_cons]
  show (List.foldl stepOpen (some []) (ORM.runFrom adapter validate schemas ORM.initState inputs).1).isSome = true
  rw [hl]
  rfl

theorem content_closes_thinking (adapter : Adapter) (st : ORM.MState) (txt : String)
    (hne : txt ≠ "") :
    (ORM.processContent adapter st txt).1.thinkingStarted = false ∧
    (st.thinkingStarted = true →
      Evt.blockStop st.thinkingIdx ∈ (ORM.processContent adapter st txt).2) := by
  unfold ORM.processContent
  rw [if_neg hne]
  dsimp only
  by_cases hth : st.thinkingStarted = true
  · rw [if_pos hth]
    dsimp only
    by_cases htx : st.textStarted = true
    · rw [if_pos htx]
      exact ⟨rfl, fun _ => by simp⟩
    · rw [if_neg htx]
      exact ⟨rfl, fun _ => by simp⟩
  · rw [if_neg hth]
    dsimp only
    by_cases htx : st.textStarted = true
    · rw [if_pos htx]
      exact ⟨by simpa using hth, fun hc => absurd hc hth⟩
    · rw [if_neg htx]
      exact ⟨by simpa using hth, fun hc => absurd hc hth⟩

theorem toolName_closes_blocks (st : ORM.MState) (tc : ToolCallDelta) (nm : String)
    (hfn : tc.fnName = some nm) (hfresh : getAssoc st.tools tc.index = none) :
    (ORM.processToolName st tc).1.thinkingStarted = false ∧
    (ORM.processToolName st tc).1.textStarted = false ∧
    (st.thinkingStarted = true →
      Evt.blockStop st.thinkingIdx ∈ (ORM.processToolName st tc).2.1) ∧
    (st.textStarted = true →
      Evt.blockStop st.textIdx ∈ (ORM.processToolName st tc).2.1) := by
  unfold ORM.processToolName
  rw [hfn, hfresh]
  dsimp only
  by_cases hth : st.thinkingStarted = true
  · rw [if_pos hth]
    dsimp only
    by_cases htx : st.textStarted = true
    · rw [if_pos htx]
      exact ⟨rfl, rfl, fun _ => by simp, fun _ => by simp⟩
    · rw [if_neg htx]
      exact ⟨rfl, by simpa using htx, fun _ => by simp, fun hc => absurd hc htx⟩
  · rw [if_neg hth]
    dsimp only
    by_cases htx : st.textStarted = true
    · rw [if_pos htx]
      exact ⟨by simpa using hth, rfl, fun hc => absurd hc hth, fun _ => by simp⟩
    · rw [if_neg htx]
      exact ⟨by simpa using hth, by simpa using htx,
        fun hc => absurd hc hth, fun hc => absurd hc htx⟩

/-! ## C1 — SSE event-sequence well-formedness. -/

/-- C1 counterexample: on an upstream stream interleaving reasoning, text,
reasoning again and an invalid tool call, the OpenRouter machine re-opens a
thinking block (index 2, the eighth event) after a text block (index 1) was
opened and while it is still open — so reasoning re-opens after text and two
blocks are open at once — and the started tool block 3 never receives a
content_block_stop. -/
theorem c1_counterexample_block_discipline :
    ((ORM.run defaultAdapter (validateAndRepairToolCallSpec exParseArgs exInferFail)
        [exSchemaCmd] exInterleavedStream).1[7]? = some (Evt.blockStartThinking 2)) ∧
    Evt.blockStartText 1 ∈ (ORM.run defaultAdapter
        (validateAndRepairToolCallSpec exParseArgs exInferFail)
        [exSchemaCmd] exInterleavedStream).1.take 7 ∧
    Evt.blockStop 1 ∉ (ORM.run defaultAdapter
        (validateAndRepairToolCallSpec exParseArgs exInferFail)
        [exSchemaCmd] exInterleavedStream).1.take 7 ∧
    openBlocks ((ORM.run defaultAdapter
        (validateAndRepairToolCallSpec exParseArgs exInferFail)
        [exSchemaCmd] exInterleavedStream).1.take 9) = some [2, 1] ∧
    Evt.blockStartTool 3 "call_9" "Bash" ∈ (ORM.run defaultAdapter
        (validateAndRepairToolCallSpec exParseArgs exInferFail)
        [exSchemaCmd] exInterleavedStream).1 ∧
    Evt.blockStop 3 ∉ (ORM.run defaultAdapter
        (validateAndRepairToolCallSpec exParseArgs exInferFail)
        [exSchemaCmd] exInterleavedStream).1 := by
  decide

/-- C1 (amended): every OpenRouter stream trace starts with message_start
then ping, and every content_block_stop stops a previously opened,
still-open index; moreover emitting text closes an open thinking block, and
opening a fresh tool block closes open thinking and text blocks.  The
remaining claimed properties — at most one open block, reasoning never
re-opening after text, every started block stopped — fail, see the
counterexample. -/
theorem c1_stream_wellformedness_amended :
    (∀ (adapter : Adapter) (validate : Validator) (schemas : List ToolSchema)
       (inputs : List StreamLine),
       ∃ rest, (ORM.run adapter validate schemas inputs).1 =
         Evt.messageStart :: Evt.ping :: rest) ∧
    (∀ (adapter : Adapter) (validate : Validator) (schemas : List ToolSchema)
       (inputs : List StreamLine),
       stopsMatchOpen (ORM.run adapter validate schemas inputs).1 = true) ∧
    (∀ (adapter : Adapter) (st : ORM.MState) (txt : String), txt ≠ "" →
       (ORM.processContent adapter st txt).1.thinkingStarted = false ∧
       (st.thinkingStarted = true →
         Evt.blockStop st.thinkingIdx ∈ (ORM.processContent adapter st txt).2)) ∧
    (∀ (st : ORM.MState) (tc : ToolCallDelta) (nm : String),
       tc.fnName = some nm → getAssoc st.tools tc.index = none →
       (ORM.processToolName st tc).1.thinkingStarted = false ∧
       (ORM.processToolName st tc).1.textStarted = false ∧
       (st.thinkingStarted = true →
         Evt.blockStop st.thinkingIdx ∈ (ORM.processToolName st tc).2.1) ∧
       (st.textStarted = true →
         Evt.blockStop st.textIdx ∈ (ORM.processToolName st tc).2.1)) :=
  ⟨fun _ _ _ _ => ⟨_, rfl⟩,
   run_stopsMatch,
   content_closes_thinking,
   toolName_closes_blocks⟩

/-- C1 witness: the amended theorem applied to the concrete example
streams and to states with open thinking and text blocks. -/
theorem c1_stream_wellformedness_amended_witness :
    (∃ rest, (ORM.run defaultAdapter anyValidator [] exTextStream).1 =
       Evt.messageStart :: Evt.ping :: rest) ∧
    stopsMatchOpen (ORM.run defaultAdapter
      (validateAndRepairToolCallSpec exParseArgs exInferFail)
      [exSchemaCmd] exInterleavedStream).1 = true ∧
    ("hi" ≠ "" ∧
     (ORM.processContent defaultAdapter exThinkOpen "hi").1.thinkingStarted = false ∧
     Evt.blockStop 0 ∈ (ORM.processContent defaultAdapter exThinkOpen "hi").2) ∧
    (exToolCallDelta.fnName = some "Bash" ∧
     getAssoc exOpenBoth.tools exToolCallDelta.index = none ∧
     (ORM.processToolName exOpenBoth exToolCallDelta).1.thinkingStarted = false ∧
     (ORM.processToolName exOpenBoth exToolCallDelta).1.textStarted = false ∧
     Evt.blockStop 0 ∈ (ORM.processToolName exOpenBoth exToolCallDelta).2.1 ∧
     Evt.blockStop 1 ∈ (ORM.processToolName exOpenBoth exToolCallDelta).2.1) :=
  ⟨c1_stream_wellformedness_amended.1 defaultAdapter anyValidator [] exTextStream,
   c1_stream_wellformedness_amended.2.1 defaultAdapter
     (validateAndRepairToolCallSpec exParseArgs exInferFail) [exSchemaCmd]
     exInterleavedStream,
   ⟨by decide,
    (c1_stream_wellformedness_amended.2.2.1 defaultAdapter exThinkOpen "hi"
      (by decide)).1,
    (c1_stream_wellformedness_amended.2.2.1 defaultAdapter exThinkOpen "hi"
      (by decide)).2 rfl⟩,
   ⟨rfl, rfl,
    (c1_stream_wellformedness_amended.2.2.2 exOpenBoth exToolCallDelta "Bash"
      rfl rfl).1,
    (c1_stream_wellformedness_amended.2.2.2 exOpenBoth exToolCallDelta "Bash"
      rfl rfl).2.1,
    (c1_stream_wellformedness_amended.2.2.2 exOpenBoth exToolCallDelta "Bash"
      rfl rfl).2.2.1 rfl,
    (c1_stream_wellformedness_amended.2.2.2 exOpenBoth exToolCallDelta "Bash"
      rfl rfl).2.2.2 rfl⟩⟩

end Claudish
